import Mathlib

/-!
Verification of the wordwise text-segmentation / entity-masking /
position-reconciliation pipeline.

The development shallowly embeds the TypeScript sources:
  * `src/lib/textProcessing.ts` (maskNamedEntities, unmaskEntities,
    adjustErrorPositions, splitIntoSentences, createTextChunks),
  * the Stage-B offset resolver and the deduplicating merge of
    `src/app/api/research/route.ts` (the same resolver appears verbatim in
    `src/app/api/gpt-check/route.ts`).

Strings are embedded as `List Char` (`Str`); JavaScript string primitives
(`indexOf` with a start position, `slice`, `trim`, `toLowerCase`,
single-replacement `replace`) are embedded as executable functions with the
same semantics on the inputs the code can produce.  External collaborators
(the `compromise` NER and the `sentence-splitter` boundary detector) are not
part of the repository: functions that consume them are parametrised by the
collaborator's result, exactly where the source calls the library.
-/

/-- Character-list strings, the carrier of the whole embedding. -/
abbrev Str := List Char

/-! ## JavaScript string primitives -/

/-- One candidate position of `String.indexOf`: `pat` occurs in `hay` at `i`. -/
def occursAt (hay pat : Str) (i : Nat) : Prop := pat <+: hay.drop i

instance (hay pat : Str) (i : Nat) : Decidable (occursAt hay pat i) := by
  unfold occursAt; infer_instance

/-- Search loop of `String.indexOf(pat, pos)`: try `pos`, `pos+1`, … while
`fuel` lasts, returning the first position where `pat` occurs. -/
def idxGo (hay pat : Str) : Nat → Nat → Option Nat
  | 0, _ => none
  | fuel + 1, pos =>
    if pat.isPrefixOf (hay.drop pos) then some pos else idxGo hay pat fuel (pos + 1)

/-- JavaScript `hay.indexOf(pat, f)` (result `-1` is rendered as `none`).
Positions `f, f+1, …, hay.length` are candidates; for the non-empty needles
this code ever searches, that matches JavaScript exactly. -/
def idxSearch (hay pat : Str) (f : Nat) : Option Nat :=
  idxGo hay pat (hay.length + 1 - f) f

/-- JavaScript `hay.indexOf(pat)` searching from the start. -/
def idxOf (hay pat : Str) : Option Nat := idxSearch hay pat 0

/-- JavaScript `s.slice(a, b)` for non-negative bounds. -/
def jsSlice (s : Str) (a b : Nat) : Str := (s.take b).drop a

/-- Relative-index clamping of JavaScript `slice` for possibly negative
arguments. -/
def jsClamp (len : Nat) (i : Int) : Nat :=
  if i < 0 then (len + i).toNat else min i.toNat len

/-- JavaScript `s.slice(a, b)` with arbitrary (possibly negative) numbers. -/
def jsSliceI (s : Str) (a b : Int) : Str :=
  jsSlice s (jsClamp s.length a) (jsClamp s.length b)

/-- JavaScript `s.trim()` (whitespace stripped from both ends). -/
def jsTrim (s : Str) : Str :=
  ((s.dropWhile Char.isWhitespace).reverse.dropWhile Char.isWhitespace).reverse

/-- JavaScript `s.toLowerCase()`, restricted to the ASCII case mapping. -/
def jsToLower (s : Str) : Str := s.map Char.toLower

/-- JavaScript `s.includes(sub)`. -/
def jsIncludes (s sub : Str) : Bool := (idxOf s sub).isSome

/-- ECMAScript `GetSubstitution` for a plain-string pattern (no capture
groups): scan the replacement string and expand `$$` to a literal dollar,
`$&` to the matched substring, a dollar followed by the character with code
96 to the text before the match, and a dollar followed by the character with
code 39 to the text after the match; any other `$` stays literal and
scanning resumes at the next character. -/
def jsSubst (matched before after : Str) : Str → Str
  | [] => []
  | [c] => [c]
  | c :: d :: rest =>
    if c = '$' then
      if d = '$' then '$' :: jsSubst matched before after rest
      else if d = '&' then matched ++ jsSubst matched before after rest
      else if d = Char.ofNat 96 then before ++ jsSubst matched before after rest
      else if d = Char.ofNat 39 then after ++ jsSubst matched before after rest
      else '$' :: d :: jsSubst matched before after rest
    else c :: jsSubst matched before after (d :: rest)

/-- JavaScript `s.replace(pat, repl)` with a plain-string pattern: replace the
first occurrence only (the replacement run through `GetSubstitution`, whose
matched substring equals `pat` itself), no-op when the pattern is absent. -/
def replaceFirst (s pat repl : Str) : Str :=
  match idxOf s pat with
  | some i => s.take i ++ jsSubst pat (s.take i) (s.drop (i + pat.length)) repl
      ++ s.drop (i + pat.length)
  | none => s

/-! ## The Stage-B offset resolver

Embedding of `src/app/api/research/route.ts` lines 484–543 (the identical
code appears at `src/app/api/gpt-check/route.ts` lines 288–347).  A raw
correction is the "legacy edit shape" produced by `runGptCheck`:
`{ original, suggestion, start, end, type, explanation }`, all untrusted.
`start`/`end` are `Option Int` so that a missing / non-numeric field (which
fails the route's `typeof … === 'number'` test) is representable. -/

structure Edit where
  original : Str
  suggestion : Str
  start : Option Int
  stop : Option Int
  etype : Str
  explanation : Str
deriving DecidableEq, Repr

/-- Resolved correction (`TextError` of the route).  `stop` embeds the
source field `end` (a Lean keyword). -/
structure TextError where
  etype : Str
  word : Str
  start : Int
  stop : Int
  suggestion : Str
  explanation : Str
  contextBefore : Str
  contextAfter : Str
deriving DecidableEq, Repr

/-- `extractContext` of the research route: 20 characters of original text on
either side of the span. -/
def extractContext (text : Str) (startIdx stopIdx : Int) : Str × Str :=
  (jsSliceI text (max 0 (startIdx - 20)) startIdx,
   jsSliceI text stopIdx (min (text.length : Int) (stopIdx + 20)))

/-- The verbatim-search step of the resolver: find `original` at-or-after the
cursor, and if that fails retry from position 0 (the route's "edge-case
fallback").  `none` when `original` is empty or occurs nowhere. -/
def verbatimIdx (text : Str) (cursor : Nat) (e : Edit) : Option Nat :=
  if e.original = [] then none
  else
    match idxSearch text e.original cursor with
    | some i => some i
    | none => idxOf text e.original

/-- Structural sanity test applied to the model-reported indices before they
are trusted: `0 <= start < end <= text.length`. -/
def saneIndices (text : Str) (e : Edit) : Option (Int × Int) :=
  match e.start, e.stop with
  | some s, some t =>
    if 0 ≤ s ∧ s < t ∧ t ≤ (text.length : Int) then some (s, t) else none
  | _, _ => none

/-- Category normalisation: lowercase type containing `"spell"` maps to
`spelling`, everything else (including legacy `"punctuation"`) to
`grammar`. -/
def mapType (rawType : Str) : Str :=
  if jsIncludes (jsToLower rawType) ("spell".data) then "spelling".data
  else "grammar".data

/-- One iteration of the resolver's `edits.map` closure: produce the resolved
`TextError` and the updated `searchCursor`. -/
def resolveEdit (text : Str) (cursor : Nat) (e : Edit) : TextError × Nat :=
  match verbatimIdx text cursor e with
  | some i =>
    let stopIdx : Nat := i + e.original.length
    let ctx := extractContext text i stopIdx
    ({ etype := mapType e.etype, word := e.original, start := i, stop := stopIdx,
       suggestion := e.suggestion, explanation := e.explanation,
       contextBefore := ctx.1, contextAfter := ctx.2 }, stopIdx)
  | none =>
    match saneIndices text e with
    | some (s, t) =>
      let ctx := extractContext text s t
      ({ etype := mapType e.etype, word := e.original, start := s, stop := t,
         suggestion := e.suggestion, explanation := e.explanation,
         contextBefore := ctx.1, contextAfter := ctx.2 }, cursor)
    | none =>
      let ctx := extractContext text cursor cursor
      ({ etype := mapType e.etype, word := e.original, start := cursor, stop := cursor,
         suggestion := e.suggestion, explanation := e.explanation,
         contextBefore := ctx.1, contextAfter := ctx.2 }, cursor)

/-- The whole `edits.map` pass with its mutable `searchCursor`, returning the
resolved list and the final cursor. -/
def resolveAll (text : Str) (cursor : Nat) : List Edit → List TextError × Nat
  | [] => ([], cursor)
  | e :: es =>
    let (err, c') := resolveEdit text cursor e
    let (errs, cf) := resolveAll text c' es
    (err :: errs, cf)

/-! ## Decimal rendering (JavaScript template-literal `${n}`) -/

/-- Accumulator loop producing the decimal digits of `n` in front of `acc`;
the fuel argument only bounds the recursion depth (`n < fuel` at every
call). -/
def natDigitsGo : Nat → Nat → List Char → List Char
  | 0, _, acc => acc
  | fuel + 1, n, acc =>
    if n = 0 then acc
    else natDigitsGo fuel (n / 10) (Char.ofNat (48 + n % 10) :: acc)

/-- Decimal rendering of a natural number, as `${n}` produces it. -/
def natDigits (n : Nat) : Str := if n = 0 then ['0'] else natDigitsGo (n + 1) n []

/-- Decimal rendering of an integer, as `${i}` produces it. -/
def intDigits (i : Int) : Str :=
  if i < 0 then '-' :: natDigits i.natAbs else natDigits i.toNat

/-! ## Entity masking (`src/lib/textProcessing.ts` lines 40–106)

The `compromise` NER is an external library; `maskNamedEntities` is
parametrised by its output, a list of candidate entity strings with their
category, exactly the concatenation the source builds from
`people/places/organizations/dates/urls`. -/

inductive EType
  | person
  | place
  | organization
  | date
  | url
deriving DecidableEq, Repr

/-- `entity.type.toUpperCase()` for the five category strings. -/
def etypeUpper : EType → Str
  | .person => "PERSON".data
  | .place => "PLACE".data
  | .organization => "ORGANIZATION".data
  | .date => "DATE".data
  | .url => "URL".data

/-- A NER candidate (element of the source's `allEntities`). -/
structure EntityCand where
  text : Str
  ctype : EType
deriving DecidableEq, Repr

/-- A located candidate (element of the source's `entityPositions`). -/
structure EPos where
  text : Str
  start : Nat
  stop : Nat
  ctype : EType
deriving DecidableEq, Repr

/-- Recorded masking-table entry (`MaskedEntity` of the source; `stop` embeds
the source field `end`). -/
structure MaskedEntity where
  text : Str
  replacement : Str
  start : Nat
  stop : Nat
  ctype : EType
deriving DecidableEq, Repr

/-- Result shape of `maskNamedEntities` (`ProcessedText`). -/
structure ProcessedText where
  maskedText : Str
  entities : List MaskedEntity
  originalText : Str
deriving DecidableEq, Repr

/-- The mask placeholder `<ENTITY_<TYPE>_<idx>>`. -/
def tokenStr (t : EType) (idx : Nat) : Str :=
  "<ENTITY_".data ++ etypeUpper t ++ "_".data ++ natDigits idx ++ ">".data

/-- Stable insertion (descending keys) modelling the stable JavaScript
`sort((a, b) => b.start - a.start)`: a later element is placed after every
element whose key is ≥ its own. -/
def insDescBy (key : α → Nat) (l : List α) (e : α) : List α :=
  match l with
  | [] => [e]
  | x :: xs => if key e ≤ key x then x :: insDescBy key xs e else e :: x :: xs

/-- Stable sort by descending key. -/
def sortDescBy (key : α → Nat) (l : List α) : List α := l.foldl (insDescBy key) []

/-- One `forEach` iteration of the replacement loop: splice the mask token
over the entity's original span and push the table entry. -/
def maskStep (acc : Str × List MaskedEntity) (ip : Nat × EPos) : Str × List MaskedEntity :=
  let mask := tokenStr ip.2.ctype ip.1
  (acc.1.take ip.2.start ++ mask ++ acc.1.drop ip.2.stop,
   acc.2 ++ [⟨ip.2.text, mask, ip.2.start, ip.2.stop, ip.2.ctype⟩])

/-- `maskNamedEntities(text)` with the NER's candidate list made explicit:
locate every candidate's first occurrence, sort by descending start, replace
right-to-left with sequentially numbered placeholders, finally reverse the
recorded table into document order. -/
def entityPositions (text : Str) (cands : List EntityCand) : List EPos :=
  cands.filterMap fun c =>
    (idxOf text c.text).map fun i => ⟨c.text, i, i + c.text.length, c.ctype⟩

/-- The rest of `maskNamedEntities`: sort located candidates by descending
start, replace right-to-left with sequentially numbered placeholders,
reverse the recorded table into document order. -/
def maskNamedEntities (text : Str) (cands : List EntityCand) : ProcessedText :=
  let sorted := sortDescBy EPos.start (entityPositions text cands)
  let r := sorted.enum.foldl maskStep (text, [])
  ⟨r.1, r.2.reverse, text⟩

/-- `unmaskEntities(maskedText, entities)`: one `String.replace` per entity,
processed by descending recorded start. -/
def unmaskEntities (maskedText : Str) (entities : List MaskedEntity) : Str :=
  (sortDescBy MaskedEntity.start entities).foldl
    (fun acc e => replaceFirst acc e.replacement e.text) maskedText

/-! ## Stage-A offset adjustment (`adjustErrorPositions`, lines 111–137) -/

/-- The accumulated length delta of the `entities.forEach` loop: for every
entity whose mask token's first occurrence in `maskedText` lies strictly
before the reported start `s`, add `originalLength - maskLength`. -/
def maskDelta (entities : List MaskedEntity) (maskedText : Str) (s : Int) : Int :=
  entities.foldl
    (fun acc ent =>
      match idxOf maskedText ent.replacement with
      | some p => if (p : Int) < s then
          acc + ((ent.text.length : Int) - (ent.replacement.length : Int))
        else acc
      | none => acc) 0

/-- `adjustErrorPositions(errors, maskedText, originalText, entities)`.
`originalText` is accepted and ignored, as in the source.  A missing
(non-numeric) `start` leaves the record unchanged: every `maskPos <
error.start` comparison is false, and the additions produce `NaN`, which the
downstream sanity test rejects just as it rejects the original value. -/
def adjustErrorPositions (errors : List Edit) (maskedText : Str)
    (originalText : Str) (entities : List MaskedEntity) : List Edit :=
  errors.map fun err =>
    match err.start with
    | some s =>
      let d := maskDelta entities maskedText s
      { err with start := some (s + d), stop := err.stop.map (· + d) }
    | none => err

/-! ## Sentence splitting and chunking (lines 143–193)

`sentence-splitter`'s `split` is external; `splitIntoSentences` is
parametrised by the node list it returns. -/

/-- A node of the external sentence-boundary detector. -/
structure SNode where
  ntype : Str
  raw : Str
deriving DecidableEq, Repr

/-- `splitIntoSentences`: keep `Sentence` nodes, trim, drop empties. -/
def splitIntoSentences (nodes : List SNode) : List Str :=
  ((nodes.filter fun n => decide (n.ntype = "Sentence".data)).map
    fun n => jsTrim n.raw).filter fun s => decide (s.length > 0)

/-- A produced chunk (`TextChunk`).  Offsets are integers because the source
stores `lastSentenceStart + lastSentence.length` even when the second
`indexOf` returned `-1`. -/
structure TextChunk where
  text : Str
  startOffset : Int
  endOffset : Int
  sentenceCount : Nat
deriving DecidableEq, Repr

/-- The chunk-building loop of `createTextChunks`: take the next
`k + 1` sentences, locate the first at-or-after the advancing `searchStart`
(skipping the batch when it is absent), locate the last from the batch's own
start, slice the chunk verbatim from the original text. -/
def chunksGoF (text : Str) (k : Nat) : Nat → List Str → Int → List TextChunk
  | 0, _, _ => []
  | _, [], _ => []
  | fuel + 1, s :: rest, searchStart =>
    let rest' := rest.drop k
    match idxSearch text s searchStart.toNat with
    | none => chunksGoF text k fuel rest' searchStart
    | some st =>
      let lastS := (rest.take k).getLastD s
      let stopOff : Int :=
        match idxSearch text lastS st with
        | some ls => (ls : Int) + lastS.length
        | none => (lastS.length : Int) - 1
      { text := jsSliceI text (st : Int) stopOff, startOffset := (st : Int),
        endOffset := stopOff,
        sentenceCount := (s :: rest.take k).length } :: chunksGoF text k fuel rest' stopOff

/-- The chunk loop at its natural fuel (one unit per consumed sentence). -/
def chunksGo (text : Str) (k : Nat) (l : List Str) (searchStart : Int) : List TextChunk :=
  chunksGoF text k l.length l searchStart

/-- `createTextChunks(text, sentencesPerChunk)` over the detector's nodes.
For `sentencesPerChunk = 0` the source's `for` loop never advances
(`i += 0`); the claims only concern `sentencesPerChunk ≥ 1`, and the model
returns `[]` on that divergent input. -/
def createTextChunks (text : Str) (sentencesPerChunk : Nat) (nodes : List SNode) :
    List TextChunk :=
  let sentences := splitIntoSentences nodes
  if sentences = [] then []
  else if sentencesPerChunk = 0 then []
  else chunksGo text (sentencesPerChunk - 1) sentences 0

/-! ## Deduplicating merge (`src/app/api/research/route.ts` lines 545–597)

The JavaScript `Map` keyed by the template string
`` `${start}-${end}-${type}-${word}-${suggestion}` `` is embedded as an
association list in insertion order: `Map.set` of a fresh key appends,
`Map.set` of a present key replaces the value in place, `Map.delete` removes
the entry, and iteration visits entries in list order (deleting the entry
currently visited, as the overlap loop does, skips just that entry). -/

/-- The dedup key string of a `TextError`. -/
def keyOf (e : TextError) : Str :=
  intDigits e.start ++ "-".data ++ intDigits e.stop ++ "-".data ++ e.etype
    ++ "-".data ++ e.word ++ "-".data ++ e.suggestion

/-- The route's overlap test between the incoming error `e` and an existing
map entry `ex` (three disjuncts, verbatim). -/
def overlapB (e ex : TextError) : Bool :=
  decide (e.start ≥ ex.start ∧ e.start < ex.stop)
    || decide (e.stop > ex.start ∧ e.stop ≤ ex.stop)
    || decide (e.start ≤ ex.start ∧ e.stop ≥ ex.stop)

/-- Replace the value stored under a present key (JavaScript `Map.set` on an
existing key keeps the entry's position). -/
def replaceKey (k : Str) (v : TextError) : List (Str × TextError) → List (Str × TextError)
  | [] => []
  | kv :: rest => if kv.1 = k then (k, v) :: rest else kv :: replaceKey k v rest

/-- The inner `for … of uniqueMap` loop for a fresh-keyed error `e`: walk the
entries; on overlap with an identical suggestion stop and reject `e`; on
overlap with a different suggestion delete the shorter existing entry and
continue, or stop and reject `e` when it is not strictly longer.  Returns the
surviving entries and the final `isOverlapping` flag. -/
def scanOverlap (e : TextError) : List (Str × TextError) → List (Str × TextError) × Bool
  | [] => ([], false)
  | kv :: rest =>
    if overlapB e kv.2 then
      if e.suggestion = kv.2.suggestion then (kv :: rest, true)
      else if e.stop - e.start > kv.2.stop - kv.2.start then scanOverlap e rest
      else (kv :: rest, true)
    else
      let r := scanOverlap e rest
      (kv :: r.1, r.2)

/-- Processing of one error of `errorsUnsorted.forEach`: duplicate-key
resolution (prefer the entry carrying a non-empty explanation), otherwise the
overlap scan followed by insertion. -/
def dedupStep (st : List (Str × TextError)) (e : TextError) : List (Str × TextError) :=
  let k := keyOf e
  match st.find? fun kv => decide (kv.1 = k) with
  | some kv =>
    if kv.2.explanation = [] ∧ e.explanation ≠ [] then replaceKey k e st else st
  | none =>
    let r := scanOverlap e st
    if r.2 then r.1 else r.1 ++ [(k, e)]

/-- The whole `uniqueMap` pass: `Array.from(uniqueMap.values())`. -/
def dedup (errors : List TextError) : List TextError :=
  (errors.foldl dedupStep []).map Prod.snd

/-- Stable insertion (ascending integer keys) modelling the stable JavaScript
`sort((a, b) => a.start - b.start)`. -/
def insAscBy (key : α → Int) (l : List α) (e : α) : List α :=
  match l with
  | [] => [e]
  | x :: xs => if key x ≤ key e then x :: insAscBy key xs e else e :: x :: xs

/-- Stable sort by ascending key. -/
def sortAscBy (key : α → Int) (l : List α) : List α := l.foldl (insAscBy key) []

/-- Keep an error when its trimmed suggestion differs from its trimmed word,
case-sensitively and case-insensitively (`filteredErrors`). -/
def keepNonNoOp (e : TextError) : Bool :=
  decide (jsTrim e.word ≠ jsTrim e.suggestion)
    && decide (jsToLower (jsTrim e.word) ≠ jsToLower (jsTrim e.suggestion))

/-- The final no-op-suggestion filter. -/
def filterNoOps (errors : List TextError) : List TextError := errors.filter keepNonNoOp

/-- The complete merge of the route: dedup, ascending sort by `start`, no-op
filter. -/
def mergeErrors (errors : List TextError) : List TextError :=
  filterNoOps (sortAscBy TextError.start (dedup errors))

/-! ## Spec-side auxiliary definitions used by the claim statements -/

/-- Last element of a list, or a default: used to phrase "the most recent
verbatim match". -/
def lastD (l : List α) (d : α) : α := l.foldl (fun _ x => x) d

/-- Whether the resolver located this edit by verbatim search (possibly via
the retry from position 0). -/
def verbatimFound (text : Str) (cursor : Nat) (e : Edit) : Bool :=
  (verbatimIdx text cursor e).isSome

/-- The end offsets of the verbatim matches produced while resolving a list
of edits, in order. -/
def matchEnds (text : Str) (cursor : Nat) : List Edit → List Nat
  | [] => []
  | e :: es =>
    match verbatimIdx text cursor e with
    | some i => (i + e.original.length) :: matchEnds text (i + e.original.length) es
    | none => matchEnds text cursor es

/-- Modelled from the spec (claim C5's reading of Stage B, which is absent
from the source): resolve each chunk's corrections against that chunk's own
text with a chunk-local cursor starting at 0, then translate to document
offsets by adding the chunk's start offset. -/
def resolvePerChunkSpec (chunks : List (Str × Int × List Edit)) : List TextError :=
  chunks.flatMap fun ch =>
    ((resolveAll ch.1 0 ch.2.2).1).map fun er =>
      { er with start := er.start + ch.2.1, stop := er.stop + ch.2.1 }

/-! ## Claim C1 -/

/-- Concrete corrections for the duplicated-word scenario of C1. -/
def catEdit : Edit :=
  ⟨"cat".data, "dog".data, some 0, some 3, "grammar".data, []⟩

/-! ## Claim C5 -/

/-- A correction whose flagged text lives in the first chunk only. -/
def fooEdit : Edit := ⟨"foo".data, "f".data, none, none, "grammar".data, []⟩

/-- An edit that occurs nowhere and reports no usable indices. -/
def zebraEdit : Edit := ⟨"zebra".data, "z".data, none, none, [], []⟩

/-- Demo input for the chunking claims (property 8 of the spec). -/
def demoText : Str := "Mrs. Smith went to New York. She run fast.".data

/-- Detector output for `demoText` (two sentences and the gap between them). -/
def demoNodes : List SNode :=
  [⟨"Sentence".data, "Mrs. Smith went to New York.".data⟩,
   ⟨"WhiteSpace".data, " ".data⟩,
   ⟨"Sentence".data, "She run fast.".data⟩]

/-- The single chunk that `createTextChunks demoText 2 demoNodes` produces. -/
def demoChunk : TextChunk := ⟨demoText, 0, 42, 2⟩

/-- A genuine correction that survives the merge. -/
def realErr : TextError := ⟨"spelling".data, "teh".data, 0, 3, "the".data, [], [], []⟩

/-- A no-op edit: suggestion equals word up to case and whitespace. -/
def noopErr : TextError := ⟨"grammar".data, " cat".data, 5, 8, "Cat ".data, [], [], []⟩

/-! ## Claim C4 -/

/-- The claim's formulation of the Stage-A delta: the sum, over every entity
whose mask token's first occurrence in the masked text lies strictly before
the reported start, of `originalLength - maskLength`. -/
def stageADelta (entities : List MaskedEntity) (maskedText : Str) (s : Int) : Int :=
  ((entities.filter fun ent =>
      match idxOf maskedText ent.replacement with
      | some p => decide ((p : Int) < s)
      | none => false).map
    fun ent => (ent.text.length : Int) - ent.replacement.length).sum

/-- The Paris chunk of the spec's offset-adjustment scenario. -/
def parisText : Str := "Hello World, Paris is nice.".data

/-- Its masking under a NER that reports `"Paris"` as a place. -/
def parisProcessed : ProcessedText :=
  maskNamedEntities parisText [⟨"Paris".data, EType.place⟩]

/-- A raw correction flagging `"nice"`, with indices measured in the masked
string (`"nice"` sits at 33 there, at 22 in the unmasked chunk). -/
def niceEdit : Edit :=
  ⟨"nice".data, "pleasant".data, some 33, some 37, "grammar".data, []⟩

/-! ## Claim C6 -/

/-- Embedding of the fact that `splitIntoSentences` wraps the external
detector call in no `try`/`catch`: a detector exception propagates unchanged
to the caller; a normal node list is processed as usual. -/
def splitIntoSentencesE (r : Except Str (List SNode)) : Except Str (List Str) :=
  r.map splitIntoSentences

/-- Decimal value of a digit string. -/
def valStr (s : Str) : Nat := s.foldl (fun a c => a * 10 + (c.toNat - 48)) 0

/-- Key consistency: every map entry is stored under its own key. -/
def entryKeysOk (st : List (Str × TextError)) : Prop :=
  ∀ kv ∈ st, kv.1 = keyOf kv.2

/-- Safety order on map entries: the later entry does not overlap the
earlier. -/
def QE (u v : Str × TextError) : Prop := overlapB v.2 u.2 = false

/-- The three-part invariant of the dedup map. -/
def MapInv (st : List (Str × TextError)) : Prop :=
  (st.map Prod.fst).Nodup ∧ entryKeysOk st ∧ st.Pairwise QE

/-- Safety order on resolved errors: the later does not overlap the
earlier. -/
def noRevOverlap (u v : TextError) : Prop := overlapB v u = false

/-! ## Claim C3 — mask-token structure -/

/-- A wellformed placeholder token: a `'<'`, a bracket-free body, a `'>'`. -/
def TokWf (t : Str) : Prop :=
  ∃ body, t = '<' :: (body ++ ['>']) ∧ '<' ∉ body ∧ '>' ∉ body

/-! ## Claim C3 — the masking fold on located jobs

A job is a pair (placeholder token, located span).  `maskF` is the string
part of the `entityPositions.forEach` replacement loop; `unmaskF` is the
`unmaskEntities` fold, both with the table bookkeeping stripped away. -/

def maskF (jobs : List (Str × EPos)) (A : Str) : Str :=
  jobs.foldl (fun acc j => acc.take j.2.start ++ j.1 ++ acc.drop j.2.stop) A

def unmaskF (jobs : List (Str × EPos)) (M : Str) : Str :=
  jobs.foldl (fun acc j => replaceFirst acc j.1 j.2.text) M

/-- Right-to-left processing order on jobs: each later job lies strictly to
the left of every earlier one. -/
def JobsD (jobs : List (Str × EPos)) : Prop :=
  jobs.Pairwise fun a b => b.2.stop ≤ a.2.start

/-- Spans are valid for the string being masked. -/
def SpansOk (jobs : List (Str × EPos)) (A : Str) : Prop :=
  ∀ j ∈ jobs, j.2.start < j.2.stop ∧ j.2.stop ≤ A.length ∧
    j.2.text = jsSlice A j.2.start j.2.stop

/-! ### Basic facts about the primitives -/

theorem idxGo_eq_some (hay pat : Str) :
    ∀ fuel pos i, idxGo hay pat fuel pos = some i →
      pos ≤ i ∧ occursAt hay pat i ∧ ∀ j, pos ≤ j → j < i → ¬ occursAt hay pat j := by
  intro fuel
  induction fuel with
  | zero => intro pos i h; simp [idxGo] at h
  | succ n ih =>
    intro pos i h
    unfold idxGo at h
    by_cases hp : pat.isPrefixOf (hay.drop pos)
    · simp [hp] at h
      subst h
      refine ⟨le_refl _, ?_, ?_⟩
      · exact List.isPrefixOf_iff_prefix.mp hp
      · intro j h1 h2; omega
    · simp [hp] at h
      obtain ⟨h1, h2, h3⟩ := ih (pos + 1) i h
      refine ⟨by omega, h2, ?_⟩
      intro j hj1 hj2
      rcases Nat.eq_or_lt_of_le hj1 with rfl | hlt
      · intro hc
        exact hp (List.isPrefixOf_iff_prefix.mpr hc)
      · exact h3 j hlt hj2

theorem idxGo_eq_none (hay pat : Str) :
    ∀ fuel pos, idxGo hay pat fuel pos = none →
      ∀ j, pos ≤ j → j < pos + fuel → ¬ occursAt hay pat j := by
  intro fuel
  induction fuel with
  | zero => intro pos _ j h1 h2; omega
  | succ n ih =>
    intro pos h j h1 h2
    unfold idxGo at h
    by_cases hp : pat.isPrefixOf (hay.drop pos)
    · simp [hp] at h
    · simp [hp] at h
      rcases Nat.eq_or_lt_of_le h1 with rfl | hlt
      · intro hc; exact hp (List.isPrefixOf_iff_prefix.mpr hc)
      · exact ih (pos + 1) h j hlt (by omega)

/-- An occurrence of a non-empty pattern never starts beyond the end of the
haystack. -/
theorem occursAt_le_length (hay pat : Str) (i : Nat) (hne : pat ≠ [])
    (h : occursAt hay pat i) : i ≤ hay.length ∧ i + pat.length ≤ hay.length := by
  have hlen : pat.length ≤ (hay.drop i).length := h.length_le
  rw [List.length_drop] at hlen
  have hpl : 0 < pat.length := List.length_pos.mpr hne
  omega

/-- `idxSearch` finds the least occurrence at-or-after the start position. -/
theorem idxSearch_eq_some (hay pat : Str) (f i : Nat)
    (h : idxSearch hay pat f = some i) :
    f ≤ i ∧ occursAt hay pat i ∧ ∀ j, f ≤ j → j < i → ¬ occursAt hay pat j :=
  idxGo_eq_some hay pat _ f i h

/-- When `idxSearch` fails, a non-empty pattern has no occurrence at-or-after
the start position. -/
theorem idxSearch_eq_none (hay pat : Str) (f : Nat) (hne : pat ≠ [])
    (h : idxSearch hay pat f = none) :
    ∀ j, f ≤ j → ¬ occursAt hay pat j := by
  intro j hj hc
  have hb := (occursAt_le_length hay pat j hne hc).1
  exact idxGo_eq_none hay pat _ f h j hj (by unfold idxSearch at h; omega) hc

/-- Completeness: if a non-empty pattern occurs at-or-after `f`, the search
succeeds. -/
theorem idxSearch_isSome (hay pat : Str) (f j : Nat) (hne : pat ≠ [])
    (hj : f ≤ j) (hocc : occursAt hay pat j) : (idxSearch hay pat f).isSome := by
  cases h : idxSearch hay pat f with
  | some i => rfl
  | none => exact absurd hocc (idxSearch_eq_none hay pat f hne h j hj)

theorem idxSearch_bounds (hay pat : Str) (f i : Nat) (hne : pat ≠ [])
    (h : idxSearch hay pat f = some i) : i + pat.length ≤ hay.length :=
  (occursAt_le_length hay pat i hne (idxSearch_eq_some hay pat f i h).2.1).2

theorem lastD_cons (x d : α) (l : List α) : lastD (x :: l) d = lastD l x := rfl

/-- C1: when a correction's `original_text` occurs in the text at or after
the current search cursor, the resolver picks the first such occurrence
(start = that index, end = start + length) and advances the cursor to that
end; in particular the two `"cat"` corrections over
`"the cat sat on the cat mat"` resolve to the first and second occurrences
(spans `[4,7)` and `[19,22)`), not both to the first. -/
theorem C1_cursor_advancing_first_occurrence (text : Str) (cursor : Nat) (e : Edit)
    (i : Nat) (hne : e.original ≠ []) (hcur : cursor ≤ i)
    (hocc : occursAt text e.original i)
    (hfirst : ∀ j < i, cursor ≤ j → ¬ occursAt text e.original j) :
    (resolveEdit text cursor e).1.start = (i : Int) ∧
    (resolveEdit text cursor e).1.stop = (i : Int) + e.original.length ∧
    (resolveEdit text cursor e).2 = i + e.original.length ∧
    ((resolveAll "the cat sat on the cat mat".data 0 [catEdit, catEdit]).1.map
      fun er => (er.start, er.stop)) = [(4, 7), (19, 22)] := by
  have hsome : (idxSearch text e.original cursor).isSome :=
    idxSearch_isSome text e.original cursor i hne hcur hocc
  obtain ⟨i', hi'⟩ := Option.isSome_iff_exists.mp hsome
  obtain ⟨hge, hocc', hmin⟩ := idxSearch_eq_some text e.original cursor i' hi'
  have hii : i' = i := by
    rcases Nat.lt_trichotomy i' i with h | h | h
    · exact absurd hocc' (hfirst i' h hge)
    · exact h
    · exact absurd hocc (hmin i hcur h)
  subst hii
  have hv : verbatimIdx text cursor e = some i' := by
    unfold verbatimIdx
    simp [hne, hi']
  refine ⟨?_, ?_, ?_, by decide⟩ <;>
    simp [resolveEdit, hv]

/-- Witness for C1 at a concrete input: resolving the second `"cat"` with the
cursor already past the first occurrence lands on the second occurrence. -/
theorem C1_witness :
    (resolveEdit "the cat sat on the cat mat".data 7 catEdit).1.start = 19 ∧
    (resolveEdit "the cat sat on the cat mat".data 7 catEdit).2 = 22 := by
  have h := C1_cursor_advancing_first_occurrence "the cat sat on the cat mat".data 7 catEdit
    19 (by decide) (by decide) (by decide) (by decide)
  refine ⟨h.1, ?_⟩
  rw [h.2.2.1]
  decide

/-! ## Claim C10 -/

/-- On a fallback resolution (no verbatim match) the cursor is unchanged. -/
theorem resolveEdit_cursor_of_no_match (text : Str) (cursor : Nat) (e : Edit)
    (h : verbatimIdx text cursor e = none) : (resolveEdit text cursor e).2 = cursor := by
  unfold resolveEdit
  rw [h]
  cases hs : saneIndices text e with
  | none => rfl
  | some p => cases p; rfl

/-- C10: the Stage-B cursor advances exactly on verbatim matches — it becomes
the match's end when `original_text` is located by substring search, is left
unchanged by either fallback, and after any list of corrections equals the
end offset of the most recent verbatim match (or the starting cursor — 0 at
the top of the route — when there was none). -/
theorem C10_cursor_only_advances_on_verbatim (text : Str) :
    (∀ cursor e, verbatimFound text cursor e = false →
      (resolveEdit text cursor e).2 = cursor) ∧
    (∀ cursor e i, verbatimIdx text cursor e = some i →
      (resolveEdit text cursor e).2 = i + e.original.length ∧
      (resolveEdit text cursor e).1.stop = (i : Int) + e.original.length) ∧
    (∀ edits cursor, (resolveAll text cursor edits).2 =
      lastD (matchEnds text cursor edits) cursor) := by
  refine ⟨?_, ?_, ?_⟩
  · intro cursor e h
    have hn : verbatimIdx text cursor e = none := by
      unfold verbatimFound at h
      exact Option.not_isSome_iff_eq_none.mp (by simp [h])
    exact resolveEdit_cursor_of_no_match text cursor e hn
  · intro cursor e i h
    constructor <;> simp [resolveEdit, h]
  · intro edits
    induction edits with
    | nil => intro cursor; rfl
    | cons e es ih =>
      intro cursor
      cases hv : verbatimIdx text cursor e with
      | some i =>
        have hc : (resolveEdit text cursor e).2 = i + e.original.length := by
          simp [resolveEdit, hv]
        simp only [resolveAll, matchEnds, hv, lastD_cons, hc]
        exact ih (i + e.original.length)
      | none =>
        have hc : (resolveEdit text cursor e).2 = cursor :=
          resolveEdit_cursor_of_no_match text cursor e hv
        simp only [resolveAll, matchEnds, hv, hc]
        exact ih cursor

/-- Witness for C10: a fallback (unfindable `original_text`) leaves the
cursor at 5; the final cursor over a mixed list equals the end of the last
verbatim match. -/
theorem C10_witness :
    (resolveEdit "the cat sat on the cat mat".data 5
      ⟨"zebra".data, "z".data, none, none, [], []⟩).2 = 5 ∧
    (resolveAll "the cat sat on the cat mat".data 0
      [catEdit, ⟨"zebra".data, "z".data, none, none, [], []⟩, catEdit]).2 =
      lastD (matchEnds "the cat sat on the cat mat".data 0
        [catEdit, ⟨"zebra".data, "z".data, none, none, [], []⟩, catEdit]) 0 := by
  constructor
  · exact (C10_cursor_only_advances_on_verbatim "the cat sat on the cat mat".data).1 5
      ⟨"zebra".data, "z".data, none, none, [], []⟩ (by decide)
  · exact (C10_cursor_only_advances_on_verbatim "the cat sat on the cat mat".data).2.2
      [catEdit, ⟨"zebra".data, "z".data, none, none, [], []⟩, catEdit] 0

/-- Counterexample to C5: the route resolves the concatenated edit list
against the whole document with one cursor, so a second-chunk correction
whose `original_text` occurs only inside the first chunk's region resolves to
span `[0,3)` in the document — while chunk-scoped resolution (search limited
to `"baz qux."`, collapse, then `+ 9`) would give the zero-length span
`[9,9)`. -/
theorem C5_counterexample :
    ((resolveAll "foo bar. baz qux.".data 0 [fooEdit]).1.map fun er => (er.start, er.stop))
        = [(0, 3)] ∧
      (resolvePerChunkSpec
          [("foo bar.".data, (0 : Int), ([] : List Edit)),
           ("baz qux.".data, 9, [fooEdit])]).map (fun er => (er.start, er.stop))
        = [(9, 9)] ∧
      ((resolveAll "foo bar. baz qux.".data 0 [fooEdit]).1.map fun er => (er.start, er.stop))
        ≠ (resolvePerChunkSpec
            [("foo bar.".data, (0 : Int), ([] : List Edit)),
             ("baz qux.".data, 9, [fooEdit])]).map fun er => (er.start, er.stop) := by
  refine ⟨by decide, by decide, by decide⟩

/-- C5 amended: Stage B is document-scoped.  Resolving the concatenation of
two chunks' edit lists equals resolving the first list and then the second
with the single cursor threaded through — the cursor state is shared across
chunk boundaries (no chunk-local text, no chunk-local cursor, no
`chunkStartOffset` translation at this stage). -/
theorem C5_single_threaded_cursor (text : Str) (c : Nat) (es1 es2 : List Edit) :
    resolveAll text c (es1 ++ es2) =
      ((resolveAll text c es1).1 ++ (resolveAll text (resolveAll text c es1).2 es2).1,
       (resolveAll text (resolveAll text c es1).2 es2).2) := by
  induction es1 generalizing c with
  | nil => simp [resolveAll]
  | cons e es ih =>
    simp only [List.cons_append, resolveAll, List.append_eq]
    rw [ih]

/-! ## Claim C7 -/

theorem verbatimIdx_spec (text : Str) (cursor : Nat) (e : Edit) (i : Nat)
    (h : verbatimIdx text cursor e = some i) :
    e.original ≠ [] ∧
      (idxSearch text e.original cursor = some i ∨ idxSearch text e.original 0 = some i) := by
  unfold verbatimIdx at h
  by_cases he : e.original = []
  · simp [he] at h
  · rw [if_neg he] at h
    refine ⟨he, ?_⟩
    cases hs : idxSearch text e.original cursor with
    | some j =>
      rw [hs] at h
      exact Or.inl h
    | none =>
      rw [hs] at h
      unfold idxOf at h
      exact Or.inr h

theorem saneIndices_spec (text : Str) (e : Edit) (s t : Int)
    (h : saneIndices text e = some (s, t)) :
    0 ≤ s ∧ s < t ∧ t ≤ (text.length : Int) := by
  unfold saneIndices at h
  cases hs : e.start with
  | none => simp [hs] at h
  | some a =>
    cases ht : e.stop with
    | none => simp [hs, ht] at h
    | some b =>
      rw [hs, ht] at h
      by_cases hcond : 0 ≤ a ∧ a < b ∧ b ≤ (text.length : Int)
      · simp [hcond] at h
        obtain ⟨rfl, rfl⟩ := h
        exact hcond
      · simp [hcond] at h

/-- Per-edit validity: starting from an in-range cursor, the produced error
has `0 ≤ start ≤ end ≤ length` and the updated cursor stays in range. -/
theorem resolveEdit_bounds (text : Str) (cursor : Nat) (e : Edit)
    (hc : cursor ≤ text.length) :
    0 ≤ (resolveEdit text cursor e).1.start ∧
    (resolveEdit text cursor e).1.start ≤ (resolveEdit text cursor e).1.stop ∧
    (resolveEdit text cursor e).1.stop ≤ (text.length : Int) ∧
    (resolveEdit text cursor e).2 ≤ text.length := by
  cases hv : verbatimIdx text cursor e with
  | some i =>
    obtain ⟨hne, hor⟩ := verbatimIdx_spec text cursor e i hv
    have hb : i + e.original.length ≤ text.length := by
      rcases hor with h | h
      · exact idxSearch_bounds text e.original cursor i hne h
      · exact idxSearch_bounds text e.original 0 i hne h
    simp only [resolveEdit, hv]
    refine ⟨by positivity, ?_, ?_, hb⟩
    · push_cast; omega
    · push_cast; omega
  | none =>
    cases hs : saneIndices text e with
    | some p =>
      obtain ⟨s, t⟩ := p
      obtain ⟨h0, hst, hl⟩ := saneIndices_spec text e s t hs
      simp only [resolveEdit, hv, hs]
      exact ⟨h0, by omega, hl, hc⟩
    | none =>
      simp only [resolveEdit, hv, hs]
      refine ⟨by positivity, le_refl _, by exact_mod_cast hc, hc⟩

/-- C7: the resolver never drops a correction (one `TextError` per raw edit),
every produced offset pair satisfies `0 ≤ start ≤ end ≤ text.length`, and
when the flagged substring is unfindable and the reported indices fail the
sanity check the result collapses to the zero-length span at the current
cursor. -/
theorem C7_no_drop_valid_offsets (text : Str) :
    (∀ edits cursor, cursor ≤ text.length →
      (resolveAll text cursor edits).1.length = edits.length ∧
      (resolveAll text cursor edits).2 ≤ text.length ∧
      ∀ err ∈ (resolveAll text cursor edits).1,
        0 ≤ err.start ∧ err.start ≤ err.stop ∧ err.stop ≤ (text.length : Int)) ∧
    (∀ cursor e, verbatimIdx text cursor e = none → saneIndices text e = none →
      (resolveEdit text cursor e).1.start = (cursor : Int) ∧
      (resolveEdit text cursor e).1.stop = (cursor : Int)) := by
  constructor
  · intro edits
    induction edits with
    | nil => intro cursor hc; exact ⟨rfl, hc, by simp [resolveAll]⟩
    | cons e es ih =>
      intro cursor hc
      have hb := resolveEdit_bounds text cursor e hc
      obtain ⟨ihlen, ihcur, ihmem⟩ := ih (resolveEdit text cursor e).2 hb.2.2.2
      refine ⟨?_, ?_, ?_⟩
      · simp only [resolveAll]
        simpa using ihlen
      · simp only [resolveAll]
        exact ihcur
      · intro err hmem
        simp only [resolveAll, List.mem_cons] at hmem
        rcases hmem with rfl | hmem
        · exact ⟨hb.1, hb.2.1, hb.2.2.1⟩
        · exact ihmem err hmem
  · intro cursor e hv hs
    constructor <;> simp [resolveEdit, hv, hs]

/-- Witness for C7: two raw edits yield exactly two errors, and the
unfindable edit collapses to the zero-length span at the cursor. -/
theorem C7_witness :
    (resolveAll "the cat".data 0 [catEdit, zebraEdit]).1.length = 2 ∧
    (resolveEdit "the cat".data 3 zebraEdit).1.start = 3 ∧
    (resolveEdit "the cat".data 3 zebraEdit).1.stop = 3 := by
  have h := C7_no_drop_valid_offsets "the cat".data
  refine ⟨(h.1 [catEdit, zebraEdit] 0 (by decide)).1, ?_, ?_⟩
  · exact (h.2 3 zebraEdit (by decide) (by decide)).1
  · exact (h.2 3 zebraEdit (by decide) (by decide)).2

/-! ## Claim C2 -/

theorem chunksGoF_slice (text : Str) (k : Nat) :
    ∀ fuel l searchStart c, c ∈ chunksGoF text k fuel l searchStart →
      c.text = jsSliceI text c.startOffset c.endOffset := by
  intro fuel
  induction fuel with
  | zero => intro l s c h; simp [chunksGoF] at h
  | succ m ih =>
    intro l s c h
    cases l with
    | nil => simp [chunksGoF] at h
    | cons sent rest =>
      simp only [chunksGoF] at h
      cases hst : idxSearch text sent s.toNat with
      | none =>
        rw [hst] at h
        exact ih (rest.drop k) s c h
      | some st =>
        rw [hst] at h
        simp only [List.mem_cons] at h
        rcases h with rfl | h
        · rfl
        · exact ih (rest.drop k) _ c h

/-- C2: for every input text, detector output, and `sentencesPerChunk ≥ 1`,
every produced chunk's `text` is the verbatim slice of the original text
between its recorded offsets. -/
theorem C2_chunk_slice_invariant (text : Str) (nodes : List SNode) (n : Nat)
    (hn : 1 ≤ n) :
    ∀ c ∈ createTextChunks text n nodes, c.text = jsSliceI text c.startOffset c.endOffset := by
  intro c h
  unfold createTextChunks at h
  by_cases h1 : splitIntoSentences nodes = []
  · simp [h1] at h
  · rw [if_neg h1] at h
    rw [if_neg (by omega : ¬ n = 0)] at h
    exact chunksGoF_slice text (n - 1) _ _ _ c h

/-- Witness for C2 on the demo document. -/
theorem C2_witness :
    1 ≤ 2 ∧ demoChunk ∈ createTextChunks demoText 2 demoNodes ∧
      demoChunk.text = jsSliceI demoText demoChunk.startOffset demoChunk.endOffset :=
  ⟨by decide, by decide,
    C2_chunk_slice_invariant demoText demoNodes 2 (by decide) demoChunk (by decide)⟩

/-! ## Claim C9 -/

/-- C9: no error whose trimmed, lowercased suggestion equals its trimmed,
lowercased word survives the final merged output. -/
theorem C9_no_noop_suggestions (errors : List TextError) :
    ∀ e ∈ mergeErrors errors,
      jsToLower (jsTrim e.suggestion) ≠ jsToLower (jsTrim e.word) := by
  intro e h
  unfold mergeErrors filterNoOps at h
  have hk := List.of_mem_filter h
  unfold keepNonNoOp at hk
  simp only [Bool.and_eq_true, decide_eq_true_eq] at hk
  exact fun hc => hk.2 hc.symm

/-- Witness for C9: the no-op edit disappears, and the surviving error's
suggestion is no case/whitespace-insensitive restatement of its word. -/
theorem C9_witness :
    mergeErrors [realErr, noopErr] = [realErr] ∧
      jsToLower (jsTrim realErr.suggestion) ≠ jsToLower (jsTrim realErr.word) :=
  ⟨by decide, C9_no_noop_suggestions [realErr, noopErr] realErr (by decide)⟩

theorem maskDelta_foldl (mt : Str) (s : Int) :
    ∀ (ents : List MaskedEntity) (acc : Int),
      List.foldl
        (fun acc ent =>
          match idxOf mt ent.replacement with
          | some p => if (p : Int) < s then
              acc + ((ent.text.length : Int) - (ent.replacement.length : Int))
            else acc
          | none => acc) acc ents = acc + stageADelta ents mt s := by
  intro ents
  induction ents with
  | nil => intro acc; simp [stageADelta]
  | cons ent rest ih =>
    intro acc
    cases hp : idxOf mt ent.replacement with
    | some p =>
      by_cases hlt : (p : Int) < s
      · simp only [List.foldl_cons, hp, if_pos hlt]
        rw [ih]
        simp only [stageADelta, List.filter_cons, hp, decide_eq_true_eq]
        rw [if_pos (by simpa using hlt)]
        simp [stageADelta]
        ring
      · simp only [List.foldl_cons, hp, if_neg hlt]
        rw [ih]
        simp only [stageADelta, List.filter_cons, hp, decide_eq_true_eq]
        rw [if_neg (by simpa using hlt)]
    | none =>
      simp only [List.foldl_cons, hp]
      rw [ih]
      simp only [stageADelta, List.filter_cons, hp]
      simp

theorem maskDelta_eq_sum (ents : List MaskedEntity) (mt : Str) (s : Int) :
    maskDelta ents mt s = stageADelta ents mt s := by
  unfold maskDelta
  simpa using maskDelta_foldl mt s ents 0

/-- C4: Stage A adds the same delta — the sum over entities masked before the
reported start of `originalLength - maskLength` — to both indices, so the
span length is unchanged; and on the spec's concrete scenario Stage A
followed by Stage B lands on the flagged word's true position in the
unmasked chunk. -/
theorem C4_stageA_adjustment (mt ot : Str) (ents : List MaskedEntity) :
    (∀ s : Int, maskDelta ents mt s = stageADelta ents mt s) ∧
    (∀ (err : Edit) (s : Int), err.start = some s →
      adjustErrorPositions [err] mt ot ents =
        [{ err with start := some (s + stageADelta ents mt s),
                    stop := err.stop.map (· + stageADelta ents mt s) }]) ∧
    (∀ s t : Int, (t + stageADelta ents mt s) - (s + stageADelta ents mt s) = t - s) ∧
    ((adjustErrorPositions [niceEdit] parisProcessed.maskedText
        parisProcessed.originalText parisProcessed.entities).map
      fun e => (e.start, e.stop)) = [(some 22, some 26)] ∧
    ((resolveAll parisText 0
        (adjustErrorPositions [niceEdit] parisProcessed.maskedText
          parisProcessed.originalText parisProcessed.entities)).1.map
      fun er => (er.start, er.stop)) = [(22, 26)] ∧
    idxOf parisText "nice".data = some 22 := by
  refine ⟨fun s => maskDelta_eq_sum ents mt s, ?_, by intro s t; ring, by decide, by decide,
    by decide⟩
  intro err s hs
  unfold adjustErrorPositions
  simp only [List.map_cons, List.map_nil, hs]
  rw [maskDelta_eq_sum]

/-- Witness for C4: the adjustment of the `"nice"` correction on the Paris
chunk, with the delta instantiated at its reported start. -/
theorem C4_witness :
    adjustErrorPositions [niceEdit] parisProcessed.maskedText
        parisProcessed.originalText parisProcessed.entities =
      [{ niceEdit with
          start := some (33 + stageADelta parisProcessed.entities
            parisProcessed.maskedText 33),
          stop := niceEdit.stop.map (· + stageADelta parisProcessed.entities
            parisProcessed.maskedText 33) }] :=
  (C4_stageA_adjustment parisProcessed.maskedText parisProcessed.originalText
    parisProcessed.entities).2.1 niceEdit 33 (by decide)

/-- Counterexample to C6: when the detector yields no sentence nodes for the
non-empty, non-whitespace input `"Hello"` (an empty node list, or a single
non-`Sentence` node), the segmenter returns the empty sequence — not the
whole input as one sentence — and the chunker then produces zero chunks. -/
theorem C6_counterexample :
    splitIntoSentences ([] : List SNode) = [] ∧
    splitIntoSentences [⟨"Str".data, "Hello".data⟩] = [] ∧
    ([] : List Str) ≠ ["Hello".data] ∧
    createTextChunks "Hello".data 2 [⟨"Str".data, "Hello".data⟩] = [] := by
  refine ⟨rfl, by decide, by decide, by decide⟩

/-- C6 amended: the segmenter has no whole-text fallback and no exception
handler.  A detector exception propagates to the caller; when every node
trims to the empty string (as for empty or whitespace-only input), the
segmenter returns the empty sequence, the chunker returns zero chunks, and
the downstream resolver and merge produce zero corrections. -/
theorem C6_no_fallback_empty_behaviour (text : Str) (n : Nat) (nodes : List SNode)
    (hws : ∀ node ∈ nodes, jsTrim node.raw = []) :
    splitIntoSentences nodes = [] ∧
    createTextChunks text n nodes = [] ∧
    (resolveAll text 0 []).1 = [] ∧
    mergeErrors [] = [] ∧
    (∀ msg : Str, splitIntoSentencesE (Except.error msg) = Except.error msg) := by
  have hsplit : splitIntoSentences nodes = [] := by
    unfold splitIntoSentences
    rw [List.filter_eq_nil_iff]
    intro s hs
    simp only [List.mem_map] at hs
    obtain ⟨node, hmem, rfl⟩ := hs
    have := hws node (List.mem_of_mem_filter hmem)
    simp [this]
  refine ⟨hsplit, ?_, rfl, rfl, fun _ => rfl⟩
  unfold createTextChunks
  simp [hsplit]

/-- Witness for C6's amended statement on a whitespace-only document. -/
theorem C6_witness :
    splitIntoSentences [(⟨"WhiteSpace".data, "  ".data⟩ : SNode)] = [] ∧
    createTextChunks "  ".data 3 [(⟨"WhiteSpace".data, "  ".data⟩ : SNode)] = [] := by
  have h := C6_no_fallback_empty_behaviour "  ".data 3
    [(⟨"WhiteSpace".data, "  ".data⟩ : SNode)] (by decide)
  exact ⟨h.1, h.2.1⟩

/-! ## Claim C8 — decimal-string facts

The dedup key is a single string, so two errors collide exactly when their
rendered fields concatenate identically; recovering `start`/`stop` from a key
needs that a rendered integer contains `'-'` at most as its first character
and that rendering is injective. -/

theorem charOfDigit_isDigit (m : Nat) (hm : m < 10) :
    (Char.ofNat (48 + m)).isDigit = true := by
  interval_cases m <;> decide

theorem charOfDigit_val (m : Nat) (hm : m < 10) :
    (Char.ofNat (48 + m)).toNat - 48 = m := by
  interval_cases m <;> decide

theorem natDigitsGo_chars :
    ∀ fuel n acc c, c ∈ natDigitsGo fuel n acc → c ∈ acc ∨ c.isDigit = true := by
  intro fuel
  induction fuel with
  | zero => intro n acc c h; exact Or.inl h
  | succ f ih =>
    intro n acc c h
    unfold natDigitsGo at h
    by_cases hn : n = 0
    · rw [if_pos hn] at h; exact Or.inl h
    · rw [if_neg hn] at h
      rcases ih (n / 10) _ c h with hmem | hdig
      · rcases List.mem_cons.mp hmem with rfl | hmem
        · exact Or.inr (charOfDigit_isDigit _ (Nat.mod_lt n (by norm_num)))
        · exact Or.inl hmem
      · exact Or.inr hdig

theorem natDigits_chars (n : Nat) : ∀ c ∈ natDigits n, c.isDigit = true := by
  intro c h
  unfold natDigits at h
  by_cases hn : n = 0
  · rw [if_pos hn] at h
    simp at h
    subst h; decide
  · rw [if_neg hn] at h
    rcases natDigitsGo_chars _ n [] c h with hmem | hdig
    · simp at hmem
    · exact hdig

theorem dash_not_mem_natDigits (n : Nat) : '-' ∉ natDigits n := by
  intro h
  have := natDigits_chars n '-' h
  simp at this

theorem natDigitsGo_acc :
    ∀ fuel n acc, n < fuel → natDigitsGo fuel n acc = natDigitsGo fuel n [] ++ acc := by
  intro fuel
  induction fuel with
  | zero => intro n acc h; omega
  | succ f ih =>
    intro n acc h
    by_cases hn : n = 0
    · subst hn; simp [natDigitsGo]
    · have hdiv : n / 10 < f := by
        have h1 : n / 10 < n := Nat.div_lt_self (Nat.pos_of_ne_zero hn) (by norm_num)
        omega
      show natDigitsGo (f + 1) n acc = natDigitsGo (f + 1) n [] ++ acc
      unfold natDigitsGo
      rw [if_neg hn, if_neg hn]
      rw [ih (n / 10) (Char.ofNat (48 + n % 10) :: acc) hdiv,
        ih (n / 10) [Char.ofNat (48 + n % 10)] hdiv]
      simp

theorem natDigitsGo_fuel :
    ∀ f1 f2 n, n < f1 → n < f2 → natDigitsGo f1 n [] = natDigitsGo f2 n [] := by
  intro f1
  induction f1 with
  | zero => intro f2 n h; omega
  | succ g ih =>
    intro f2 n h1 h2
    cases f2 with
    | zero => omega
    | succ g2 =>
      by_cases hn : n = 0
      · subst hn; simp [natDigitsGo]
      · have hdiv : n / 10 < n := Nat.div_lt_self (Nat.pos_of_ne_zero hn) (by norm_num)
        show natDigitsGo (g + 1) n [] = natDigitsGo (g2 + 1) n []
        unfold natDigitsGo
        rw [if_neg hn, if_neg hn]
        rw [natDigitsGo_acc g (n / 10) _ (by omega), natDigitsGo_acc g2 (n / 10) _ (by omega)]
        rw [ih g2 (n / 10) (by omega) (by omega)]

theorem valStr_foldl (s : Str) :
    ∀ acc, s.foldl (fun a c => a * 10 + (c.toNat - 48)) acc =
      acc * 10 ^ s.length + valStr s := by
  induction s with
  | nil => intro acc; simp [valStr]
  | cons c t ih =>
    intro acc
    simp only [List.foldl_cons, List.length_cons]
    rw [ih]
    have hv : valStr (c :: t) =
        (0 * 10 + (c.toNat - 48)) * 10 ^ t.length + valStr t :=
      ih (0 * 10 + (c.toNat - 48))
    rw [hv]
    ring

theorem valStr_append (a b : Str) :
    valStr (a ++ b) = valStr a * 10 ^ b.length + valStr b := by
  unfold valStr
  rw [List.foldl_append]
  rw [valStr_foldl b]
  rfl

theorem valStr_natDigitsGo :
    ∀ n fuel, n < fuel → valStr (natDigitsGo fuel n []) = n := by
  intro n
  induction n using Nat.strong_induction_on with
  | _ n ih =>
    intro fuel h
    cases fuel with
    | zero => omega
    | succ f =>
      by_cases hn : n = 0
      · subst hn; simp [natDigitsGo, valStr]
      · have hdiv : n / 10 < n := Nat.div_lt_self (Nat.pos_of_ne_zero hn) (by norm_num)
        show valStr (natDigitsGo (f + 1) n []) = n
        unfold natDigitsGo
        rw [if_neg hn]
        rw [natDigitsGo_acc f (n / 10) _ (by omega)]
        rw [valStr_append]
        rw [ih (n / 10) hdiv f (by omega)]
        simp only [List.length_cons, List.length_nil]
        have hv : valStr [Char.ofNat (48 + n % 10)] = n % 10 := by
          unfold valStr
          simp [charOfDigit_val (n % 10) (Nat.mod_lt n (by norm_num))]
        rw [hv]
        simp
        omega

theorem valStr_natDigits (n : Nat) : valStr (natDigits n) = n := by
  unfold natDigits
  by_cases hn : n = 0
  · subst hn; simp [valStr]
  · rw [if_neg hn]
    exact valStr_natDigitsGo n (n + 1) (by omega)

theorem natDigits_inj {a b : Nat} (h : natDigits a = natDigits b) : a = b := by
  have := valStr_natDigits a
  rw [h, valStr_natDigits b] at this
  omega

theorem natDigits_ne_nil (n : Nat) : natDigits n ≠ [] := by
  unfold natDigits
  by_cases hn : n = 0
  · simp [hn]
  · rw [if_neg hn]
    intro hc
    have := valStr_natDigitsGo n (n + 1) (by omega)
    rw [hc] at this
    simp [valStr] at this
    exact hn this.symm

theorem intDigits_ne_nil (i : Int) : intDigits i ≠ [] := by
  unfold intDigits
  by_cases hi : i < 0
  · simp [hi]
  · simpa [hi] using natDigits_ne_nil i.toNat

theorem intDigits_inj {a b : Int} (h : intDigits a = intDigits b) : a = b := by
  unfold intDigits at h
  by_cases ha : a < 0 <;> by_cases hb : b < 0
  · rw [if_pos ha, if_pos hb] at h
    simp only [List.cons.injEq] at h
    have := natDigits_inj h.2
    omega
  · rw [if_pos ha, if_neg hb] at h
    exact absurd (h ▸ List.mem_cons_self '-' _) (dash_not_mem_natDigits b.toNat)
  · rw [if_neg ha, if_pos hb] at h
    exact absurd (h.symm ▸ List.mem_cons_self '-' _) (dash_not_mem_natDigits a.toNat)
  · rw [if_neg ha, if_neg hb] at h
    have := natDigits_inj h
    omega

/-- A rendered integer never decomposes as a non-empty prefix, a dash, and a
suffix: its only possible dash is the leading sign. -/
theorem intDigits_no_dash_ext (i : Int) (pre suf : Str) (hpre : pre ≠ [])
    (h : intDigits i = pre ++ '-' :: suf) : False := by
  unfold intDigits at h
  by_cases hi : i < 0
  · rw [if_pos hi] at h
    cases pre with
    | nil => exact hpre rfl
    | cons c cs =>
      simp only [List.cons_append, List.cons.injEq] at h
      exact dash_not_mem_natDigits i.natAbs
        (h.2 ▸ List.mem_append_right cs (List.mem_cons_self '-' suf))
  · rw [if_neg hi] at h
    exact dash_not_mem_natDigits i.toNat
      (h ▸ List.mem_append_right pre (List.mem_cons_self '-' suf))

/-- Unique parse of `<rendered int>-<rest>`. -/
theorem intDigits_sep_inj (i1 i2 : Int) (r1 r2 : Str)
    (h : intDigits i1 ++ '-' :: r1 = intDigits i2 ++ '-' :: r2) :
    i1 = i2 ∧ r1 = r2 := by
  rcases List.append_eq_append_iff.mp h with ⟨a, ha, hr⟩ | ⟨c, ha, hr⟩
  · cases a with
    | nil =>
      rw [List.append_nil] at ha
      refine ⟨intDigits_inj ha.symm, ?_⟩
      rw [List.nil_append] at hr
      exact (List.cons.injEq _ _ _ _ ▸ hr).2
    | cons x a' =>
      simp only [List.cons_append, List.cons.injEq] at hr
      obtain ⟨hx, -⟩ := hr
      subst hx
      exact (intDigits_no_dash_ext i2 (intDigits i1) a'
        (intDigits_ne_nil i1) ha).elim
  · cases c with
    | nil =>
      rw [List.append_nil] at ha
      refine ⟨intDigits_inj ha, ?_⟩
      rw [List.nil_append] at hr
      exact (List.cons.injEq _ _ _ _ ▸ hr).2.symm
    | cons x c' =>
      simp only [List.cons_append, List.cons.injEq] at hr
      obtain ⟨hx, -⟩ := hr
      subst hx
      exact (intDigits_no_dash_ext i1 (intDigits i2) c'
        (intDigits_ne_nil i2) ha).elim

/-- Key collisions force equal spans: two errors whose key strings coincide
have the same `start` and the same `end`. -/
theorem keyOf_eq_spans {e1 e2 : TextError} (h : keyOf e1 = keyOf e2) :
    e1.start = e2.start ∧ e1.stop = e2.stop := by
  unfold keyOf at h
  simp only [List.append_assoc, List.singleton_append] at h
  obtain ⟨h1, h2⟩ := intDigits_sep_inj _ _ _ _ h
  obtain ⟨h3, _⟩ := intDigits_sep_inj _ _ _ _ h2
  exact ⟨h1, h3⟩

/-! ## Claim C8 — overlap geometry -/

theorem overlap_congr_left {a b x : TextError} (h1 : a.start = b.start)
    (h2 : a.stop = b.stop) : overlapB a x = overlapB b x := by
  unfold overlapB
  rw [h1, h2]

theorem overlap_congr_right {a b x : TextError} (h1 : a.start = b.start)
    (h2 : a.stop = b.stop) : overlapB x a = overlapB x b := by
  unfold overlapB
  rw [h1, h2]

/-- Orientation flip: if the earlier-starting error does not overlap the
later-starting one, the reverse orientation does not overlap either. -/
theorem overlap_flip {p q : TextError} (hlt : p.start < q.start)
    (h : overlapB p q = false) : overlapB q p = false := by
  unfold overlapB at h ⊢
  simp only [Bool.or_eq_false_iff, decide_eq_false_iff_not, not_and, not_lt, not_le] at h ⊢
  omega

/-! ## Claim C8 — the scan, the map invariant -/

theorem scanOverlap_sublist (e : TextError) :
    ∀ st, List.Sublist (scanOverlap e st).1 st := by
  intro st
  induction st with
  | nil => simp [scanOverlap]
  | cons kv rest ih =>
    unfold scanOverlap
    by_cases h1 : overlapB e kv.2
    · rw [if_pos h1]
      by_cases h2 : e.suggestion = kv.2.suggestion
      · rw [if_pos h2]
      · rw [if_neg h2]
        by_cases h3 : e.stop - e.start > kv.2.stop - kv.2.start
        · rw [if_pos h3]
          exact ih.cons kv
        · rw [if_neg h3]
    · rw [if_neg h1]
      exact ih.cons₂ kv

theorem scanOverlap_no_overlap (e : TextError) :
    ∀ st, (scanOverlap e st).2 = false →
      ∀ kv ∈ (scanOverlap e st).1, overlapB e kv.2 = false := by
  intro st
  induction st with
  | nil => intro _ kv h; simp [scanOverlap] at h
  | cons kv0 rest ih =>
    intro hflag kv hmem
    unfold scanOverlap at hflag hmem
    by_cases h1 : overlapB e kv0.2
    · rw [if_pos h1] at hflag hmem
      by_cases h2 : e.suggestion = kv0.2.suggestion
      · rw [if_pos h2] at hflag; simp at hflag
      · rw [if_neg h2] at hflag hmem
        by_cases h3 : e.stop - e.start > kv0.2.stop - kv0.2.start
        · rw [if_pos h3] at hflag hmem
          exact ih hflag kv hmem
        · rw [if_neg h3] at hflag; simp at hflag
    · rw [if_neg h1] at hflag hmem
      simp only [List.mem_cons] at hmem
      rcases hmem with rfl | hmem
      · simpa using h1
      · exact ih hflag kv hmem

/-- When the incoming error overlaps nothing in the map, the scan keeps the
map intact and reports no overlap. -/
theorem scanOverlap_of_clean (e : TextError) :
    ∀ st, (∀ kv ∈ st, overlapB e kv.2 = false) → scanOverlap e st = (st, false) := by
  intro st
  induction st with
  | nil => intro _; rfl
  | cons kv rest ih =>
    intro hclean
    unfold scanOverlap
    rw [if_neg (by simp [hclean kv (List.mem_cons_self kv rest)])]
    rw [ih fun kv' h => hclean kv' (List.mem_cons_of_mem kv h)]

theorem replaceKey_keys (k : Str) (v : TextError) :
    ∀ st, (replaceKey k v st).map Prod.fst = st.map Prod.fst := by
  intro st
  induction st with
  | nil => rfl
  | cons kv rest ih =>
    unfold replaceKey
    by_cases h : kv.1 = k
    · rw [if_pos h]
      simp [h]
    · rw [if_neg h]
      simp [ih]

theorem replaceKey_mem (k : Str) (v : TextError) :
    ∀ st kv', kv' ∈ replaceKey k v st →
      kv' ∈ st ∨ (kv' = (k, v) ∧ ∃ kv0 ∈ st, kv0.1 = k) := by
  intro st
  induction st with
  | nil => intro kv' h; simp [replaceKey] at h
  | cons kv rest ih =>
    intro kv' h
    unfold replaceKey at h
    by_cases hk : kv.1 = k
    · rw [if_pos hk] at h
      rcases List.mem_cons.mp h with rfl | h
      · exact Or.inr ⟨rfl, kv, List.mem_cons_self kv rest, hk⟩
      · exact Or.inl (List.mem_cons_of_mem kv h)
    · rw [if_neg hk] at h
      rcases List.mem_cons.mp h with rfl | h
      · exact Or.inl (List.mem_cons_self kv' rest)
      · rcases ih kv' h with h1 | ⟨h1, kv0, h2, h3⟩
        · exact Or.inl (List.mem_cons_of_mem kv h1)
        · exact Or.inr ⟨h1, kv0, List.mem_cons_of_mem kv h2, h3⟩

theorem replaceKey_pairwise (e : TextError) :
    ∀ st, entryKeysOk st → st.Pairwise QE →
      (replaceKey (keyOf e) e st).Pairwise QE := by
  intro st
  induction st with
  | nil => intro _ _; exact List.Pairwise.nil
  | cons kv rest ih =>
    intro hkeys hpw
    obtain ⟨hhead, htail⟩ := List.pairwise_cons.mp hpw
    unfold replaceKey
    by_cases hk : kv.1 = keyOf e
    · rw [if_pos hk]
      refine List.pairwise_cons.mpr ⟨?_, htail⟩
      intro v hv
      have hck : keyOf e = keyOf kv.2 := by
        rw [← hk]
        exact hkeys kv (List.mem_cons_self kv rest)
      obtain ⟨hs, ht⟩ := keyOf_eq_spans hck
      unfold QE
      rw [overlap_congr_right hs ht]
      exact hhead v hv
    · rw [if_neg hk]
      refine List.pairwise_cons.mpr ⟨?_, ?_⟩
      · intro v hv
        rcases replaceKey_mem (keyOf e) e rest v hv with h1 | ⟨rfl, kv0, h2, h3⟩
        · exact hhead v h1
        · have hck : keyOf e = keyOf kv0.2 := by
            rw [← h3]
            exact hkeys kv0 (List.mem_cons_of_mem kv h2)
          obtain ⟨hs, ht⟩ := keyOf_eq_spans hck
          unfold QE
          rw [overlap_congr_left hs ht]
          exact hhead kv0 h2
      · exact ih (fun kv' h => hkeys kv' (List.mem_cons_of_mem kv h)) htail

theorem dedupStep_inv (st : List (Str × TextError)) (e : TextError)
    (h : MapInv st) : MapInv (dedupStep st e) := by
  obtain ⟨hnd, hkeys, hpw⟩ := h
  cases hf : st.find? fun kv => decide (kv.1 = keyOf e) with
  | some kv =>
    have hstep : dedupStep st e =
        if kv.2.explanation = [] ∧ e.explanation ≠ [] then replaceKey (keyOf e) e st
        else st := by
      simp only [dedupStep, hf]
    rw [hstep]
    by_cases hrep : kv.2.explanation = [] ∧ e.explanation ≠ []
    · rw [if_pos hrep]
      have hk : kv.1 = keyOf e := by
        have := List.find?_some hf
        simpa using this
      refine ⟨?_, ?_, ?_⟩
      · rw [replaceKey_keys]
        exact hnd
      · intro kv' h
        rcases replaceKey_mem (keyOf e) e st kv' h with h1 | ⟨rfl, _⟩
        · exact hkeys kv' h1
        · rfl
      · exact replaceKey_pairwise e st hkeys hpw
    · rw [if_neg hrep]
      exact ⟨hnd, hkeys, hpw⟩
  | none =>
    have hnotin : keyOf e ∉ st.map Prod.fst := by
      intro hc
      obtain ⟨kv, hkv, hk⟩ := List.mem_map.mp hc
      have := List.find?_eq_none.mp hf kv hkv
      simp [hk] at this
    have hsub := scanOverlap_sublist e st
    have hsubmap : List.Sublist ((scanOverlap e st).1.map Prod.fst) (st.map Prod.fst) :=
      hsub.map Prod.fst
    have hnd' : ((scanOverlap e st).1.map Prod.fst).Nodup := hnd.sublist hsubmap
    have hkeys' : entryKeysOk (scanOverlap e st).1 :=
      fun kv h => hkeys kv (hsub.subset h)
    have hpw' : (scanOverlap e st).1.Pairwise QE := hpw.sublist hsub
    have hstep : dedupStep st e =
        if (scanOverlap e st).2 = true then (scanOverlap e st).1
        else (scanOverlap e st).1 ++ [(keyOf e, e)] := by
      simp only [dedupStep, hf]
    rw [hstep]
    by_cases hflag : (scanOverlap e st).2 = true
    · rw [if_pos hflag]
      exact ⟨hnd', hkeys', hpw'⟩
    · rw [if_neg hflag]
      have hflag' : (scanOverlap e st).2 = false := by
        cases hb : (scanOverlap e st).2
        · rfl
        · exact absurd hb hflag
      refine ⟨?_, ?_, ?_⟩
      · rw [List.map_append]
        simp only [List.map_cons, List.map_nil]
        rw [List.nodup_append]
        refine ⟨hnd', List.nodup_singleton _, ?_⟩
        intro k hk1 hk2
        simp at hk2
        subst hk2
        exact hnotin (hsubmap.subset hk1)
      · intro kv h
        rcases List.mem_append.mp h with h1 | h1
        · exact hkeys' kv h1
        · simp at h1
          subst h1
          rfl
      · rw [List.pairwise_append]
        refine ⟨hpw', List.pairwise_singleton _ _, ?_⟩
        intro u hu v hv
        simp at hv
        subst hv
        exact scanOverlap_no_overlap e st hflag' u hu

theorem dedup_inv (errors : List TextError) : MapInv (errors.foldl dedupStep []) := by
  have hgen : ∀ (l : List TextError) (st : List (Str × TextError)),
      MapInv st → MapInv (l.foldl dedupStep st) := by
    intro l
    induction l with
    | nil => intro st h; exact h
    | cons e t ih => intro st h; exact ih (dedupStep st e) (dedupStep_inv st e h)
  refine hgen errors [] ⟨by simp, ?_, List.Pairwise.nil⟩
  intro kv h
  simp at h

theorem dedup_keys_nodup (errors : List TextError) :
    ((dedup errors).map keyOf).Nodup := by
  obtain ⟨hnd, hkeys, _⟩ := dedup_inv errors
  unfold dedup
  rw [List.map_map]
  have hmaps : (errors.foldl dedupStep []).map (keyOf ∘ Prod.snd) =
      (errors.foldl dedupStep []).map Prod.fst := by
    apply List.map_congr_left
    intro kv h
    exact (hkeys kv h).symm
  rw [hmaps]
  exact hnd

theorem dedup_pairwise (errors : List TextError) :
    (dedup errors).Pairwise noRevOverlap := by
  obtain ⟨_, _, hpw⟩ := dedup_inv errors
  unfold dedup
  exact List.pairwise_map.mpr hpw

/-! ## Claim C8 — the stable sort -/

theorem insAscBy_mem (key : α → Int) :
    ∀ (l : List α) (e x : α), x ∈ insAscBy key l e ↔ x ∈ l ∨ x = e := by
  intro l
  induction l with
  | nil => intro e x; simp [insAscBy]
  | cons a t ih =>
    intro e x
    unfold insAscBy
    by_cases h : key a ≤ key e
    · rw [if_pos h]
      simp only [List.mem_cons, ih]
      tauto
    · rw [if_neg h]
      simp only [List.mem_cons]
      tauto

theorem insAscBy_sorted (key : α → Int) :
    ∀ (l : List α) (e : α), l.Pairwise (fun a b => key a ≤ key b) →
      (insAscBy key l e).Pairwise (fun a b => key a ≤ key b) := by
  intro l
  induction l with
  | nil => intro e _; simp [insAscBy]
  | cons a t ih =>
    intro e hpw
    obtain ⟨hhead, htail⟩ := List.pairwise_cons.mp hpw
    unfold insAscBy
    by_cases h : key a ≤ key e
    · rw [if_pos h]
      refine List.pairwise_cons.mpr ⟨?_, ih e htail⟩
      intro y hy
      rcases (insAscBy_mem key t e y).mp hy with hmem | rfl
      · exact hhead y hmem
      · exact h
    · rw [if_neg h]
      refine List.pairwise_cons.mpr ⟨?_, hpw⟩
      intro y hy
      rcases List.mem_cons.mp hy with rfl | hmem
      · omega
      · have := hhead y hmem
        omega

theorem insAscBy_perm (key : α → Int) :
    ∀ (l : List α) (e : α), (insAscBy key l e).Perm (e :: l) := by
  intro l
  induction l with
  | nil => intro e; simp [insAscBy]
  | cons a t ih =>
    intro e
    unfold insAscBy
    by_cases h : key a ≤ key e
    · rw [if_pos h]
      exact ((ih e).cons a).trans (List.Perm.swap e a t)
    · rw [if_neg h]

theorem sortAscBy_perm (key : α → Int) (l : List α) : (sortAscBy key l).Perm l := by
  have hgen : ∀ (l acc : List α), (l.foldl (insAscBy key) acc).Perm (acc ++ l) := by
    intro l
    induction l with
    | nil => intro acc; simp
    | cons e t ih =>
      intro acc
      simp only [List.foldl_cons]
      refine (ih (insAscBy key acc e)).trans ?_
      refine (((insAscBy_perm key acc e).append_right t).trans ?_)
      exact List.perm_middle.symm
  simpa using hgen l []

theorem insAscBy_append (key : α → Int) :
    ∀ (l : List α) (e : α), (∀ x ∈ l, key x ≤ key e) → insAscBy key l e = l ++ [e] := by
  intro l
  induction l with
  | nil => intro e _; rfl
  | cons a t ih =>
    intro e hall
    unfold insAscBy
    rw [if_pos (hall a (List.mem_cons_self a t))]
    rw [ih e fun x hx => hall x (List.mem_cons_of_mem a hx)]
    rfl

theorem sortAscBy_foldl_id (key : α → Int) :
    ∀ (l acc : List α), (acc ++ l).Pairwise (fun a b => key a ≤ key b) →
      l.foldl (insAscBy key) acc = acc ++ l := by
  intro l
  induction l with
  | nil => intro acc _; simp
  | cons e t ih =>
    intro acc hpw
    have hins : insAscBy key acc e = acc ++ [e] := by
      apply insAscBy_append
      intro x hx
      have := (List.pairwise_append.mp hpw).2.2 x hx e (List.mem_cons_self e t)
      exact this
    simp only [List.foldl_cons, hins]
    have hpw' : ((acc ++ [e]) ++ t).Pairwise (fun a b => key a ≤ key b) := by
      rw [List.append_assoc]
      simpa using hpw
    rw [ih (acc ++ [e]) hpw']
    simp

theorem sortAscBy_id (key : α → Int) (l : List α)
    (h : l.Pairwise (fun a b => key a ≤ key b)) : sortAscBy key l = l := by
  unfold sortAscBy
  simpa using sortAscBy_foldl_id key l [] (by simpa using h)

theorem insAscBy_pairwiseQ :
    ∀ (l : List TextError) (e : TextError),
      l.Pairwise (fun a b => a.start ≤ b.start) → l.Pairwise noRevOverlap →
      (∀ x ∈ l, noRevOverlap x e) →
      (insAscBy TextError.start l e).Pairwise noRevOverlap := by
  intro l
  induction l with
  | nil => intro e _ _ _; simp [insAscBy]
  | cons a t ih =>
    intro e hsorted hQ hall
    obtain ⟨hshead, hstail⟩ := List.pairwise_cons.mp hsorted
    obtain ⟨hqhead, hqtail⟩ := List.pairwise_cons.mp hQ
    unfold insAscBy
    by_cases h : a.start ≤ e.start
    · rw [if_pos h]
      refine List.pairwise_cons.mpr ⟨?_, ?_⟩
      · intro y hy
        rcases (insAscBy_mem TextError.start t e y).mp hy with hmem | rfl
        · exact hqhead y hmem
        · exact hall a (List.mem_cons_self a t)
      · exact ih e hstail hqtail fun x hx => hall x (List.mem_cons_of_mem a hx)
    · rw [if_neg h]
      refine List.pairwise_cons.mpr ⟨?_, hQ⟩
      intro y hy
      have hey : e.start < y.start := by
        rcases List.mem_cons.mp hy with rfl | hmem
        · omega
        · have := hshead y hmem
          omega
      have hyq : overlapB e y = false := hall y hy
      exact overlap_flip hey hyq

theorem sortAsc_pairwiseQ :
    ∀ (l acc : List TextError),
      acc.Pairwise (fun a b => a.start ≤ b.start) → acc.Pairwise noRevOverlap →
      (∀ x ∈ acc, ∀ y ∈ l, noRevOverlap x y) → l.Pairwise noRevOverlap →
      (l.foldl (insAscBy TextError.start) acc).Pairwise noRevOverlap := by
  intro l
  induction l with
  | nil => intro acc _ hQ _ _; exact hQ
  | cons e t ih =>
    intro acc hsorted hQ hall hlQ
    obtain ⟨hlhead, hltail⟩ := List.pairwise_cons.mp hlQ
    simp only [List.foldl_cons]
    refine ih (insAscBy TextError.start acc e) (insAscBy_sorted _ acc e hsorted)
      (insAscBy_pairwiseQ acc e hsorted hQ
        fun x hx => hall x hx e (List.mem_cons_self e t)) ?_ hltail
    intro x hx y hy
    rcases (insAscBy_mem TextError.start acc e x).mp hx with hmem | rfl
    · exact hall x hmem y (List.mem_cons_of_mem e hy)
    · exact hlhead y hy

theorem sortAscBy_pairwiseQ (l : List TextError) (h : l.Pairwise noRevOverlap) :
    (sortAscBy TextError.start l).Pairwise noRevOverlap := by
  unfold sortAscBy
  exact sortAsc_pairwiseQ l [] List.Pairwise.nil List.Pairwise.nil (by simp) h

theorem sortAscBy_sorted (l : List TextError) :
    (sortAscBy TextError.start l).Pairwise (fun a b => a.start ≤ b.start) := by
  have hgen : ∀ (l acc : List TextError),
      acc.Pairwise (fun a b => a.start ≤ b.start) →
      (l.foldl (insAscBy TextError.start) acc).Pairwise (fun a b => a.start ≤ b.start) := by
    intro l
    induction l with
    | nil => intro acc h; exact h
    | cons e t ih =>
      intro acc h
      exact ih (insAscBy TextError.start acc e) (insAscBy_sorted _ acc e h)
  exact hgen l [] List.Pairwise.nil

/-! ## Claim C8 — merging an already-merged list is the identity -/

theorem dedup_foldl_id :
    ∀ (rest : List TextError) (st : List (Str × TextError)),
      ((st.map Prod.fst) ++ rest.map keyOf).Nodup →
      entryKeysOk st →
      (∀ kv ∈ st, ∀ e ∈ rest, overlapB e kv.2 = false) →
      rest.Pairwise noRevOverlap →
      rest.foldl dedupStep st = st ++ rest.map fun e => (keyOf e, e) := by
  intro rest
  induction rest with
  | nil => intro st _ _ _ _; simp
  | cons e t ih =>
    intro st hnd hkeys hov hpw
    obtain ⟨hpwhead, hpwtail⟩ := List.pairwise_cons.mp hpw
    have hdisj : ∀ kv ∈ st, kv.1 ≠ keyOf e := by
      intro kv hkv hc
      have h1 : kv.1 ∈ st.map Prod.fst := List.mem_map_of_mem Prod.fst hkv
      have h2 : keyOf e ∈ (e :: t).map keyOf := List.mem_map_of_mem keyOf (by simp)
      have := (List.nodup_append.mp hnd).2.2
      exact this h1 (hc ▸ h2)
    have hfind : st.find? (fun kv => decide (kv.1 = keyOf e)) = none := by
      apply List.find?_eq_none.mpr
      intro kv hkv
      simpa using hdisj kv hkv
    have hscan : scanOverlap e st = (st, false) :=
      scanOverlap_of_clean e st fun kv hkv => hov kv hkv e (by simp)
    have hstep : dedupStep st e = st ++ [(keyOf e, e)] := by
      simp only [dedupStep, hfind, hscan]
      simp
    simp only [List.foldl_cons, hstep]
    rw [ih (st ++ [(keyOf e, e)]) ?_ ?_ ?_ hpwtail]
    · simp
    · rw [List.map_append]
      simp only [List.map_cons, List.map_nil, List.map_map]
      have : (st.map Prod.fst ++ [keyOf e]) ++ t.map keyOf =
          st.map Prod.fst ++ (keyOf e :: t.map keyOf) := by simp
      rw [this]
      simpa using hnd
    · intro kv hkv
      rcases List.mem_append.mp hkv with h1 | h1
      · exact hkeys kv h1
      · simp at h1
        subst h1
        rfl
    · intro kv hkv e' he'
      rcases List.mem_append.mp hkv with h1 | h1
      · exact hov kv h1 e' (List.mem_cons_of_mem e he')
      · simp at h1
        subst h1
        exact hpwhead e' he'

theorem dedup_id (I : List TextError) (hnd : (I.map keyOf).Nodup)
    (hQ : I.Pairwise noRevOverlap) : dedup I = I := by
  unfold dedup
  rw [dedup_foldl_id I [] (by simpa using hnd) (by intro kv h; simp at h)
    (by intro kv h; simp at h) hQ]
  simp [List.map_map]
  exact List.map_id I

/-- C8: the route's merge (duplicate-key resolution, overlap resolution,
ascending sort by `start`, no-op filtering) is idempotent — applying it to
its own output returns that output unchanged. -/
theorem C8_merge_idempotent (errors : List TextError) :
    mergeErrors (mergeErrors errors) = mergeErrors errors := by
  have hdk : ((dedup errors).map keyOf).Nodup := dedup_keys_nodup errors
  have hdq : (dedup errors).Pairwise noRevOverlap := dedup_pairwise errors
  have hsq : (sortAscBy TextError.start (dedup errors)).Pairwise noRevOverlap :=
    sortAscBy_pairwiseQ (dedup errors) hdq
  have hss : (sortAscBy TextError.start (dedup errors)).Pairwise
      (fun a b => a.start ≤ b.start) := sortAscBy_sorted (dedup errors)
  have hsk : ((sortAscBy TextError.start (dedup errors)).map keyOf).Nodup := by
    have hp := (sortAscBy_perm TextError.start (dedup errors)).map keyOf
    exact hp.nodup_iff.mpr hdk
  set M := mergeErrors errors with hM
  have hMsub : List.Sublist M (sortAscBy TextError.start (dedup errors)) := by
    rw [hM]
    unfold mergeErrors filterNoOps
    exact List.filter_sublist _
  have hMq : M.Pairwise noRevOverlap := hsq.sublist hMsub
  have hMs : M.Pairwise (fun a b => a.start ≤ b.start) := hss.sublist hMsub
  have hMk : (M.map keyOf).Nodup := hsk.sublist (hMsub.map keyOf)
  have hMkeep : ∀ e ∈ M, keepNonNoOp e = true := by
    intro e h
    rw [hM] at h
    unfold mergeErrors filterNoOps at h
    exact List.of_mem_filter h
  show mergeErrors M = M
  unfold mergeErrors
  rw [dedup_id M hMk hMq]
  rw [sortAscBy_id TextError.start M hMs]
  unfold filterNoOps
  exact List.filter_eq_self.mpr hMkeep

/-! ## Claim C3 — the descending stable sort -/

theorem insDescBy_mem (key : α → Nat) :
    ∀ (l : List α) (e x : α), x ∈ insDescBy key l e ↔ x ∈ l ∨ x = e := by
  intro l
  induction l with
  | nil => intro e x; simp [insDescBy]
  | cons a t ih =>
    intro e x
    unfold insDescBy
    by_cases h : key e ≤ key a
    · rw [if_pos h]
      simp only [List.mem_cons, ih]
      tauto
    · rw [if_neg h]
      simp only [List.mem_cons]
      tauto

theorem insDescBy_sorted (key : α → Nat) :
    ∀ (l : List α) (e : α), l.Pairwise (fun a b => key b ≤ key a) →
      (insDescBy key l e).Pairwise (fun a b => key b ≤ key a) := by
  intro l
  induction l with
  | nil => intro e _; simp [insDescBy]
  | cons a t ih =>
    intro e hpw
    obtain ⟨hhead, htail⟩ := List.pairwise_cons.mp hpw
    unfold insDescBy
    by_cases h : key e ≤ key a
    · rw [if_pos h]
      refine List.pairwise_cons.mpr ⟨?_, ih e htail⟩
      intro y hy
      rcases (insDescBy_mem key t e y).mp hy with hmem | rfl
      · exact hhead y hmem
      · exact h
    · rw [if_neg h]
      refine List.pairwise_cons.mpr ⟨?_, hpw⟩
      intro y hy
      rcases List.mem_cons.mp hy with rfl | hmem
      · omega
      · have := hhead y hmem
        omega

theorem insDescBy_perm (key : α → Nat) :
    ∀ (l : List α) (e : α), (insDescBy key l e).Perm (e :: l) := by
  intro l
  induction l with
  | nil => intro e; simp [insDescBy]
  | cons a t ih =>
    intro e
    unfold insDescBy
    by_cases h : key e ≤ key a
    · rw [if_pos h]
      exact ((ih e).cons a).trans (List.Perm.swap e a t)
    · rw [if_neg h]

theorem sortDescBy_perm (key : α → Nat) (l : List α) : (sortDescBy key l).Perm l := by
  have hgen : ∀ (l acc : List α), (l.foldl (insDescBy key) acc).Perm (acc ++ l) := by
    intro l
    induction l with
    | nil => intro acc; simp
    | cons e t ih =>
      intro acc
      simp only [List.foldl_cons]
      refine (ih (insDescBy key acc e)).trans ?_
      refine (((insDescBy_perm key acc e).append_right t).trans ?_)
      exact List.perm_middle.symm
  simpa using hgen l []

theorem sortDescBy_sorted (key : α → Nat) (l : List α) :
    (sortDescBy key l).Pairwise (fun a b => key b ≤ key a) := by
  have hgen : ∀ (l acc : List α), acc.Pairwise (fun a b => key b ≤ key a) →
      (l.foldl (insDescBy key) acc).Pairwise (fun a b => key b ≤ key a) := by
    intro l
    induction l with
    | nil => intro acc h; exact h
    | cons e t ih =>
      intro acc h
      exact ih (insDescBy key acc e) (insDescBy_sorted key acc e h)
  exact hgen l [] List.Pairwise.nil

/-- On a strictly ascending list the stable descending sort is exactly
`reverse`. -/
theorem sortDescBy_of_ascending (key : α → Nat) (l : List α)
    (h : l.Pairwise fun a b => key a < key b) : sortDescBy key l = l.reverse := by
  have hgen : ∀ (l acc : List α),
      l.Pairwise (fun a b => key a < key b) →
      (∀ x ∈ acc, ∀ y ∈ l, key x < key y) →
      l.foldl (insDescBy key) acc = l.reverse ++ acc := by
    intro l
    induction l with
    | nil => intro acc _ _; simp
    | cons e t ih =>
      intro acc hpw hacc
      obtain ⟨hhead, htail⟩ := List.pairwise_cons.mp hpw
      have hins : insDescBy key acc e = e :: acc := by
        cases acc with
        | nil => rfl
        | cons a rest =>
          unfold insDescBy
          rw [if_neg (by
            have := hacc a (List.mem_cons_self a rest) e (List.mem_cons_self e t)
            omega)]
      simp only [List.foldl_cons, hins]
      rw [ih (e :: acc) htail ?_]
      · simp
      · intro x hx y hy
        rcases List.mem_cons.mp hx with rfl | hmem
        · exact hhead y hy
        · exact hacc x hmem y (List.mem_cons_of_mem e hy)
  simpa using hgen l [] h (by simp)

/-! ## Claim C3 — occurrence and segment toolbox -/

theorem occursAt_ext_right {X Z p : Str} {i : Nat} (h : occursAt X p i) :
    occursAt (X ++ Z) p i := by
  unfold occursAt at h ⊢
  rcases h with ⟨u, hu⟩
  by_cases hi : i ≤ X.length
  · refine ⟨u ++ Z, ?_⟩
    rw [List.drop_append_of_le_length hi, ← hu]
    simp
  · have hnil : X.drop i = [] := List.drop_eq_nil_of_le (by omega)
    rw [hnil] at hu
    have hp : p = [] := by
      rcases List.append_eq_nil.mp hu with ⟨h1, _⟩
      exact h1
    subst hp
    exact List.nil_prefix

theorem occursAt_shift {W R p : Str} {i : Nat} (hi : W.length ≤ i) :
    occursAt (W ++ R) p i ↔ occursAt R p (i - W.length) := by
  unfold occursAt
  have hdrop : (W ++ R).drop i = R.drop (i - W.length) := by
    have h1 : (W ++ R).drop i = ((W ++ R).drop W.length).drop (i - W.length) := by
      rw [List.drop_drop]
      congr 1
      omega
    rw [h1, List.drop_left]
  rw [hdrop]

theorem occursAt_singleton_left {W R : Str} {c : Char} {i : Nat} (hi : i < W.length)
    (h : occursAt (W ++ R) [c] i) : occursAt W [c] i := by
  unfold occursAt at h ⊢
  rcases h with ⟨u, hu⟩
  rw [List.drop_append_of_le_length (by omega)] at hu
  cases hW : W.drop i with
  | nil =>
    have := congrArg List.length hW
    simp at this
    omega
  | cons x t =>
    rw [hW] at hu
    simp at hu
    exact ⟨t, by rw [hu.1]; rfl⟩

theorem occursAt_singleton_mem {l : Str} {c : Char} {i : Nat}
    (h : occursAt l [c] i) : c ∈ l := by
  unfold occursAt at h
  rcases h with ⟨u, hu⟩
  have : c ∈ l.drop i := by rw [← hu]; simp
  exact List.mem_of_mem_drop this

/-- Recover the matched segment of an occurrence. -/
theorem seg_of_occursAt {t s : Str} {i : Nat} (h : occursAt t s i) :
    (t.take (i + s.length)).drop i = s := by
  unfold occursAt at h
  rcases h with ⟨u, hu⟩
  have h1 : (t.take (i + s.length)).drop i = (t.drop i).take s.length := by
    rw [List.drop_take]
    congr 1
    omega
  rw [h1, ← hu]
  simp

/-- Splitting a string at a span: `A = A[0:s) ++ A[s:e) ++ A[e:]`. -/
theorem take_slice_drop (A : Str) (s e : Nat) (hse : s ≤ e) :
    A.take s ++ (A.take e).drop s ++ A.drop e = A := by
  rw [List.append_assoc]
  have h1 : (A.take e).drop s ++ A.drop e = A.drop s := by
    by_cases hs : s ≤ A.length
    · conv_rhs => rw [← List.take_append_drop e A]
      rw [List.drop_append_of_le_length (by simp; omega)]
    · rw [List.drop_eq_nil_of_le (le_trans (by simp) (by omega : A.length ≤ s)),
        List.drop_eq_nil_of_le (by omega), List.drop_eq_nil_of_le (by omega)]
      rfl
  rw [h1, List.take_append_drop]

theorem slice_of_take {A : Str} {s e m : Nat} (hem : e ≤ m) :
    jsSlice (A.take m) s e = jsSlice A s e := by
  unfold jsSlice
  rw [List.take_take, min_eq_left hem]

theorem etypeUpper_chars (ty : EType) :
    '<' ∉ etypeUpper ty ∧ '>' ∉ etypeUpper ty ∧ '_' ∉ etypeUpper ty := by
  cases ty <;> exact ⟨by decide, by decide, by decide⟩

theorem natDigits_no_lt (n : Nat) : '<' ∉ natDigits n := by
  intro h
  have := natDigits_chars n '<' h
  simp at this

theorem natDigits_no_gt (n : Nat) : '>' ∉ natDigits n := by
  intro h
  have := natDigits_chars n '>' h
  simp at this

theorem natDigits_no_us (n : Nat) : '_' ∉ natDigits n := by
  intro h
  have := natDigits_chars n '_' h
  simp at this

theorem tokenStr_wf (ty : EType) (i : Nat) : TokWf (tokenStr ty i) := by
  refine ⟨"ENTITY_".data ++ etypeUpper ty ++ "_".data ++ natDigits i, ?_, ?_, ?_⟩
  · unfold tokenStr
    have hpre : ("<ENTITY_".data : Str) = '<' :: "ENTITY_".data := by decide
    have hgt : (">".data : Str) = ['>'] := by decide
    rw [hpre, hgt]
    simp [List.append_assoc]
  · intro h
    rcases List.mem_append.mp h with h | h
    rcases List.mem_append.mp h with h | h
    rcases List.mem_append.mp h with h | h
    · exact absurd h (by decide)
    · exact absurd h (etypeUpper_chars ty).1
    · exact absurd h (by decide)
    · exact absurd h (natDigits_no_lt i)
  · intro h
    rcases List.mem_append.mp h with h | h
    rcases List.mem_append.mp h with h | h
    rcases List.mem_append.mp h with h | h
    · exact absurd h (by decide)
    · exact absurd h (etypeUpper_chars ty).2.1
    · exact absurd h (by decide)
    · exact absurd h (natDigits_no_gt i)

/-- Parsing at a separator that occurs in neither suffix is unambiguous. -/
theorem sep_parse_right {sep : Char} {a1 a2 b1 b2 : Str}
    (h : a1 ++ sep :: b1 = a2 ++ sep :: b2) (h1 : sep ∉ b1) (h2 : sep ∉ b2) :
    a1 = a2 ∧ b1 = b2 := by
  rcases List.append_eq_append_iff.mp h with ⟨a, ha, hb⟩ | ⟨c, ha, hb⟩
  · cases a with
    | nil =>
      rw [List.append_nil] at ha
      rw [List.nil_append] at hb
      exact ⟨ha.symm, (List.cons.injEq _ _ _ _ ▸ hb).2⟩
    | cons x a' =>
      simp only [List.cons_append, List.cons.injEq] at hb
      obtain ⟨hx, hb1⟩ := hb
      exact absurd (hb1 ▸ List.mem_append_right a' (hx ▸ List.mem_cons_self sep b2))
        h1
  · cases c with
    | nil =>
      rw [List.append_nil] at ha
      rw [List.nil_append] at hb
      exact ⟨ha, ((List.cons.injEq _ _ _ _ ▸ hb).2).symm⟩
    | cons x c' =>
      simp only [List.cons_append, List.cons.injEq] at hb
      obtain ⟨hx, hb1⟩ := hb
      exact absurd (hb1 ▸ List.mem_append_right c' (hx ▸ List.mem_cons_self sep b1))
        h2

/-- Distinct sequential indices give distinct placeholder tokens. -/
theorem tokenStr_inj_idx {t1 t2 : EType} {i j : Nat} (hij : i ≠ j) :
    tokenStr t1 i ≠ tokenStr t2 j := by
  intro h
  unfold tokenStr at h
  simp only [List.append_assoc] at h
  have h1 := List.append_cancel_left h
  simp only [List.singleton_append] at h1
  obtain ⟨-, h2⟩ := sep_parse_right h1
    (by
      intro hc
      rcases List.mem_append.mp hc with hc | hc
      · exact natDigits_no_us i hc
      · exact absurd hc (by decide))
    (by
      intro hc
      rcases List.mem_append.mp hc with hc | hc
      · exact natDigits_no_us j hc
      · exact absurd hc (by decide))
  have h3 := List.append_cancel_right h2
  exact hij (natDigits_inj h3)

/-- Two wellformed tokens that are prefixes of the same string coincide. -/
theorem tokwf_prefix_imp_eq {t1 t2 : Str} (h1 : TokWf t1) (h2 : TokWf t2)
    (hp : t1 <+: t2) : t1 = t2 := by
  obtain ⟨b1, rfl, hlt1, hgt1⟩ := h1
  obtain ⟨b2, rfl, hlt2, hgt2⟩ := h2
  obtain ⟨-, hp'⟩ := (List.cons_prefix_cons).mp hp
  obtain ⟨u, hu⟩ := hp'
  rw [List.append_assoc, List.singleton_append] at hu
  rcases List.append_eq_append_iff.mp hu.symm with ⟨a, ha, hb⟩ | ⟨c, ha, hb⟩
  · cases a with
    | nil =>
      rw [List.append_nil] at ha
      rw [ha]
    | cons x a' =>
      have hlen := congrArg List.length hb
      simp at hlen
  · cases c with
    | nil =>
      rw [List.append_nil] at ha
      rw [ha]
    | cons x c' =>
      simp only [List.cons_append, List.cons.injEq] at hb
      obtain ⟨hx, -⟩ := hb
      exact absurd (ha ▸ List.mem_append_right b1 (hx ▸ List.mem_cons_self x c'))
        hgt2

theorem tokwf_prefix_eq {t1 t2 : Str} (h1 : TokWf t1) (h2 : TokWf t2) {s : Str}
    (p1 : t1 <+: s) (p2 : t2 <+: s) : t1 = t2 := by
  rcases le_total t1.length t2.length with h | h
  · exact tokwf_prefix_imp_eq h1 h2 (List.prefix_of_prefix_length_le p1 p2 h)
  · exact (tokwf_prefix_imp_eq h2 h1 (List.prefix_of_prefix_length_le p2 p1 h)).symm

/-- Splicing a sorted batch of spans that all lie inside `X` does not touch
an appended suffix. -/
theorem maskF_append :
    ∀ (jobs : List (Str × EPos)) (X Y : Str),
      (∀ j ∈ jobs, j.2.start < j.2.stop ∧ j.2.stop ≤ X.length) → JobsD jobs →
      maskF jobs (X ++ Y) = maskF jobs X ++ Y := by
  intro jobs
  induction jobs with
  | nil => intro X Y _ _; rfl
  | cons j rest ih =>
    intro X Y hv hD
    obtain ⟨hDhead, hDtail⟩ := List.pairwise_cons.mp hD
    obtain ⟨hse, hsl⟩ := hv j (List.mem_cons_self j rest)
    show maskF rest ((X ++ Y).take j.2.start ++ j.1 ++ (X ++ Y).drop j.2.stop) =
      maskF rest (X.take j.2.start ++ j.1 ++ X.drop j.2.stop) ++ Y
    rw [List.take_append_of_le_length (by omega),
      List.drop_append_of_le_length hsl]
    have hshape : X.take j.2.start ++ j.1 ++ (X.drop j.2.stop ++ Y) =
        (X.take j.2.start ++ j.1 ++ X.drop j.2.stop) ++ Y := by
      simp [List.append_assoc]
    rw [hshape]
    apply ih
    · intro j' hj'
      obtain ⟨h1, -⟩ := hv j' (List.mem_cons_of_mem j hj')
      refine ⟨h1, ?_⟩
      have h2 := hDhead j' hj'
      have h3 : j.2.start ≤ X.length := by omega
      simp
      omega
    · exact hDtail

/-- Every `'<'` inside a masked string is the start of an occurrence of one
of the placed tokens. -/
theorem maskF_lt_is_token :
    ∀ (jobs : List (Str × EPos)) (A : Str) (i : Nat),
      '<' ∉ A → (∀ j ∈ jobs, TokWf j.1) →
      (∀ j ∈ jobs, j.2.start < j.2.stop ∧ j.2.stop ≤ A.length) → JobsD jobs →
      occursAt (maskF jobs A) ['<'] i →
      ∃ j ∈ jobs, occursAt (maskF jobs A) j.1 i := by
  intro jobs
  induction jobs with
  | nil =>
    intro A i hA _ _ _ hocc
    exact absurd (occursAt_singleton_mem hocc) hA
  | cons j rest ih =>
    intro A i hA htok hv hD hocc
    obtain ⟨hDhead, hDtail⟩ := List.pairwise_cons.mp hD
    obtain ⟨hse, hsl⟩ := hv j (List.mem_cons_self j rest)
    have hvr : ∀ j' ∈ rest, j'.2.start < j'.2.stop ∧ j'.2.stop ≤ (A.take j.2.start).length := by
      intro j' hj'
      obtain ⟨h1, -⟩ := hv j' (List.mem_cons_of_mem j hj')
      have h2 := hDhead j' hj'
      refine ⟨h1, ?_⟩
      simp
      omega
    have hAr : '<' ∉ A.take j.2.start := fun hc => hA (List.mem_of_mem_take hc)
    have hshape : maskF (j :: rest) A =
        maskF rest (A.take j.2.start) ++ (j.1 ++ A.drop j.2.stop) := by
      show maskF rest (A.take j.2.start ++ j.1 ++ A.drop j.2.stop) = _
      rw [List.append_assoc]
      exact maskF_append rest (A.take j.2.start) (j.1 ++ A.drop j.2.stop) hvr hDtail
    rw [hshape] at hocc ⊢
    set W := maskF rest (A.take j.2.start) with hW
    rcases Nat.lt_trichotomy i W.length with hlt | heq | hgt
    · have hoccW : occursAt W ['<'] i := occursAt_singleton_left hlt hocc
      obtain ⟨j', hj', hocc'⟩ := ih (A.take j.2.start) i hAr
        (fun j' h => htok j' (List.mem_cons_of_mem j h)) hvr hDtail hoccW
      exact ⟨j', List.mem_cons_of_mem j hj', occursAt_ext_right hocc'⟩
    · refine ⟨j, List.mem_cons_self j rest, ?_⟩
      rw [heq]
      rw [occursAt_shift (le_refl _)]
      simp only [Nat.sub_self]
      unfold occursAt
      exact ⟨A.drop j.2.stop, by simp⟩
    · exfalso
      have hocc2 : occursAt (j.1 ++ A.drop j.2.stop) ['<'] (i - W.length) :=
        (occursAt_shift (by omega)).mp hocc
      obtain ⟨body, hjt, hltb, -⟩ := htok j (List.mem_cons_self j rest)
      rw [hjt] at hocc2
      have hpos : 1 ≤ i - W.length := by omega
      have hocc3 : occursAt ((body ++ ['>']) ++ A.drop j.2.stop) ['<'] (i - W.length - 1) := by
        have := (occursAt_shift (W := ['<'])
          (R := (body ++ ['>']) ++ A.drop j.2.stop) (by simpa using hpos)).mp
          (by simpa using hocc2)
        simpa using this
      have hmem := occursAt_singleton_mem hocc3
      rcases List.mem_append.mp hmem with hmem | hmem
      · rcases List.mem_append.mp hmem with hmem | hmem
        · exact hltb hmem
        · simp at hmem
      · exact hA (List.mem_of_mem_drop hmem)

/-- A replacement string without a dollar sign passes through
`GetSubstitution` unchanged. -/
theorem jsSubst_id (m b a : Str) :
    ∀ r : Str, '$' ∉ r → jsSubst m b a r = r := by
  intro r
  induction r with
  | nil => intro _; rfl
  | cons c rest ih =>
    intro h
    have hc : c ≠ '$' := fun hc => h (by rw [hc]; exact List.mem_cons_self _ _)
    have hrest : '$' ∉ rest := fun hm => h (List.mem_cons_of_mem _ hm)
    cases rest with
    | nil => rfl
    | cons d rest2 =>
      show (if c = '$' then _ else c :: jsSubst m b a (d :: rest2)) = c :: d :: rest2
      rw [if_neg hc, ih hrest]

/-- Replacing a token that has no earlier occurrence rewrites exactly the
designated segment (substitution applied to the replacement string). -/
theorem replaceFirst_mid (X Y tok repl : Str) (htok : tok ≠ [])
    (hno : ∀ i < X.length, ¬ occursAt (X ++ tok ++ Y) tok i) :
    replaceFirst (X ++ tok ++ Y) tok repl = X ++ jsSubst tok X Y repl ++ Y := by
  have hocc : occursAt (X ++ tok ++ Y) tok X.length := by
    rw [List.append_assoc, occursAt_shift (le_refl _)]
    simp only [Nat.sub_self]
    exact ⟨Y, by simp [occursAt]⟩
  have hsome := idxSearch_isSome (X ++ tok ++ Y) tok 0 X.length htok (Nat.zero_le _) hocc
  obtain ⟨i, hi⟩ := Option.isSome_iff_exists.mp hsome
  obtain ⟨-, hocci, hmin⟩ := idxSearch_eq_some _ _ 0 i hi
  have hieq : i = X.length := by
    rcases Nat.lt_trichotomy i X.length with h | h | h
    · exact absurd hocci (hno i h)
    · exact h
    · exact absurd hocc (hmin X.length (Nat.zero_le _) h)
  subst hieq
  unfold replaceFirst idxOf
  rw [hi]
  have htake : (X ++ tok ++ Y).take X.length = X := by
    rw [List.append_assoc, List.take_left]
  have hdrop : (X ++ tok ++ Y).drop (X.length + tok.length) = Y := by
    have h1 : X.length + tok.length = (X ++ tok).length := by simp
    rw [h1, List.drop_left]
  show (X ++ tok ++ Y).take X.length ++
      jsSubst tok ((X ++ tok ++ Y).take X.length)
        ((X ++ tok ++ Y).drop (X.length + tok.length)) repl ++
      (X ++ tok ++ Y).drop (X.length + tok.length) = X ++ jsSubst tok X Y repl ++ Y
  rw [htake, hdrop]

/-- Core round-trip: over disjoint, right-to-left ordered jobs with
wellformed pairwise-distinct tokens placed into a bracket-free string, the
unmasking fold inverts the masking fold, also in the presence of an already
restored bracket-free suffix. -/
theorem roundtrip_core :
    ∀ (jobs : List (Str × EPos)) (A C : Str),
      '<' ∉ A → '<' ∉ C → '$' ∉ A →
      (∀ j ∈ jobs, TokWf j.1) →
      SpansOk jobs A → JobsD jobs →
      jobs.Pairwise (fun a b => a.1 ≠ b.1) →
      unmaskF jobs (maskF jobs A ++ C) = A ++ C := by
  intro jobs
  induction jobs with
  | nil => intro A C _ _ _ _ _ _ _; rfl
  | cons j rest ih =>
    intro A C hA hC hdA htok hsp hD hdist
    obtain ⟨hDh, hDt⟩ := List.pairwise_cons.mp hD
    obtain ⟨hdh, hdt⟩ := List.pairwise_cons.mp hdist
    obtain ⟨hse, hsl, hst⟩ := hsp j (List.mem_cons_self j rest)
    have hlenA' : (A.take j.2.start).length = j.2.start := by
      simp
      omega
    have hvr : ∀ j' ∈ rest,
        j'.2.start < j'.2.stop ∧ j'.2.stop ≤ (A.take j.2.start).length := by
      intro j' hj'
      obtain ⟨ha, -, -⟩ := hsp j' (List.mem_cons_of_mem j hj')
      have hb := hDh j' hj'
      exact ⟨ha, by omega⟩
    have hAr : '<' ∉ A.take j.2.start := fun hc => hA (List.mem_of_mem_take hc)
    have hshape : maskF (j :: rest) A =
        maskF rest (A.take j.2.start) ++ (j.1 ++ A.drop j.2.stop) := by
      show maskF rest (A.take j.2.start ++ j.1 ++ A.drop j.2.stop) = _
      rw [List.append_assoc]
      exact maskF_append rest (A.take j.2.start) (j.1 ++ A.drop j.2.stop) hvr hDt
    set W := maskF rest (A.take j.2.start) with hWdef
    have htokr : ∀ j' ∈ rest, TokWf j'.1 :=
      fun j' h => htok j' (List.mem_cons_of_mem j h)
    have hwhole : maskF (j :: rest) A ++ C = W ++ j.1 ++ (A.drop j.2.stop ++ C) := by
      rw [hshape]
      simp [List.append_assoc]
    have hno : ∀ i < W.length,
        ¬ occursAt (W ++ j.1 ++ (A.drop j.2.stop ++ C)) j.1 i := by
      intro i hi hocc
      obtain ⟨body, hjt, -, -⟩ := htok j (List.mem_cons_self j rest)
      have hlt1 : occursAt (W ++ j.1 ++ (A.drop j.2.stop ++ C)) ['<'] i := by
        refine List.IsPrefix.trans ?_ hocc
        rw [hjt]
        exact ⟨body ++ ['>'], rfl⟩
      have hltW : occursAt W ['<'] i := by
        apply occursAt_singleton_left hi
        rw [← List.append_assoc]
        exact hlt1
      obtain ⟨j', hj', hocc'⟩ := maskF_lt_is_token rest (A.take j.2.start) i hAr
        htokr hvr hDt hltW
      have hocc'' : occursAt (W ++ j.1 ++ (A.drop j.2.stop ++ C)) j'.1 i := by
        rw [List.append_assoc]
        exact occursAt_ext_right hocc'
      have heq : j'.1 = j.1 :=
        tokwf_prefix_eq (htokr j' hj') (htok j (List.mem_cons_self j rest)) hocc'' hocc
      exact (hdh j' hj') heq.symm
    have htne : j.1 ≠ [] := by
      obtain ⟨body, hjt, -, -⟩ := htok j (List.mem_cons_self j rest)
      rw [hjt]
      simp
    have hnd : '$' ∉ j.2.text := by
      rw [hst]
      intro hc
      unfold jsSlice at hc
      exact hdA (List.mem_of_mem_take (List.mem_of_mem_drop hc))
    have hrepl : replaceFirst (W ++ j.1 ++ (A.drop j.2.stop ++ C)) j.1 j.2.text =
        W ++ j.2.text ++ (A.drop j.2.stop ++ C) := by
      rw [replaceFirst_mid W (A.drop j.2.stop ++ C) j.1 j.2.text htne hno,
        jsSubst_id _ _ _ _ hnd]
    show unmaskF rest (replaceFirst (maskF (j :: rest) A ++ C) j.1 j.2.text) = A ++ C
    rw [hwhole, hrepl]
    have hsp' : SpansOk rest (A.take j.2.start) := by
      intro j' hj'
      obtain ⟨ha, -, hc⟩ := hsp j' (List.mem_cons_of_mem j hj')
      obtain ⟨-, hb⟩ := hvr j' hj'
      refine ⟨ha, hb, ?_⟩
      rw [hc]
      exact (slice_of_take (by
        have := hDh j' hj'
        omega)).symm
    have hCnew : '<' ∉ j.2.text ++ (A.drop j.2.stop ++ C) := by
      intro hc
      rcases List.mem_append.mp hc with hc | hc
      · rw [hst] at hc
        unfold jsSlice at hc
        exact hA (List.mem_of_mem_take (List.mem_of_mem_drop hc))
      · rcases List.mem_append.mp hc with hc | hc
        · exact hA (List.mem_of_mem_drop hc)
        · exact hC hc
    have hW : W ++ j.2.text ++ (A.drop j.2.stop ++ C) =
        maskF rest (A.take j.2.start) ++ (j.2.text ++ (A.drop j.2.stop ++ C)) := by
      simp [List.append_assoc]
    have hdAr : '$' ∉ A.take j.2.start := fun hc => hdA (List.mem_of_mem_take hc)
    rw [hW]
    rw [ih (A.take j.2.start) (j.2.text ++ (A.drop j.2.stop ++ C)) hAr hCnew hdAr
      htokr hsp' hDt hdt]
    rw [hst]
    unfold jsSlice
    have := take_slice_drop A j.2.start j.2.stop (by omega)
    calc A.take j.2.start ++ ((A.take j.2.stop).drop j.2.start ++ (A.drop j.2.stop ++ C))
        = (A.take j.2.start ++ (A.take j.2.stop).drop j.2.start ++ A.drop j.2.stop) ++ C := by
          simp [List.append_assoc]
      _ = A ++ C := by rw [this]

/-! ## Claim C3 — relating `maskNamedEntities`/`unmaskEntities` to the job
folds -/

/-- The table-building fold is `maskF` over the induced jobs plus the
recorded entries in processing order. -/
theorem maskStep_fold :
    ∀ (l : List (Nat × EPos)) (A : Str) (ents : List MaskedEntity),
      l.foldl maskStep (A, ents) =
        (maskF (l.map fun ip => (tokenStr ip.2.ctype ip.1, ip.2)) A,
         ents ++ l.map fun ip =>
           (⟨ip.2.text, tokenStr ip.2.ctype ip.1, ip.2.start, ip.2.stop,
             ip.2.ctype⟩ : MaskedEntity)) := by
  intro l
  induction l with
  | nil => intro A ents; simp [maskF]
  | cons ip t ih =>
    intro A ents
    simp only [List.foldl_cons, List.map_cons]
    rw [ih]
    simp [maskStep, maskF]

theorem mem_enumFrom_le : ∀ (l : List α) (n : Nat) (x : Nat × α),
    x ∈ List.enumFrom n l → n ≤ x.1 := by
  intro l
  induction l with
  | nil => intro n x h; simp at h
  | cons a t ih =>
    intro n x h
    rcases List.mem_cons.mp h with rfl | h
    · exact le_refl _
    · have := ih (n + 1) x h
      omega

theorem enumFrom_pairwise_lt : ∀ (l : List α) (n : Nat),
    (List.enumFrom n l).Pairwise fun a b => a.1 < b.1 := by
  intro l
  induction l with
  | nil => intro n; simp
  | cons a t ih =>
    intro n
    refine List.pairwise_cons.mpr ⟨?_, ih (n + 1)⟩
    intro x hx
    have := mem_enumFrom_le t (n + 1) x hx
    omega

theorem enumFrom_pairwise_snd {R : α → α → Prop} :
    ∀ (l : List α) (n : Nat), l.Pairwise R →
      (List.enumFrom n l).Pairwise fun a b => R a.2 b.2 := by
  intro l
  induction l with
  | nil => intro n _; simp
  | cons a t ih =>
    intro n h
    obtain ⟨hhead, htail⟩ := List.pairwise_cons.mp h
    refine List.pairwise_cons.mpr ⟨?_, ih (n + 1) htail⟩
    intro x hx
    have hx2 : x.2 ∈ t := by
      have : x.2 ∈ (List.enumFrom (n + 1) t).map Prod.snd := List.mem_map_of_mem _ hx
      rwa [List.enumFrom_map_snd] at this
    exact hhead x.2 hx2

theorem mem_enumFrom_snd {x : Nat × α} {l : List α} {n : Nat}
    (h : x ∈ List.enumFrom n l) : x.2 ∈ l := by
  have : x.2 ∈ (List.enumFrom n l).map Prod.snd := List.mem_map_of_mem _ h
  rwa [List.enumFrom_map_snd] at this

theorem entityPositions_spec (text : Str) (cands : List EntityCand)
    (h1 : ∀ c ∈ cands, c.text ≠ []) :
    ∀ p ∈ entityPositions text cands,
      p.text ≠ [] ∧ p.start < p.stop ∧ p.stop ≤ text.length ∧
        p.text = jsSlice text p.start p.stop := by
  intro p hp
  unfold entityPositions at hp
  obtain ⟨c, hc, hcp⟩ := List.mem_filterMap.mp hp
  cases hio : idxOf text c.text with
  | none => rw [hio] at hcp; simp at hcp
  | some i =>
    rw [hio] at hcp
    simp at hcp
    subst hcp
    have hne := h1 c hc
    obtain ⟨-, hocc, -⟩ := idxSearch_eq_some text c.text 0 i hio
    have hb := idxSearch_bounds text c.text 0 i hne hio
    refine ⟨hne, ?_, hb, ?_⟩
    · have := List.length_pos.mpr hne
      show i < i + c.text.length
      omega
    · unfold jsSlice
      exact (seg_of_occursAt hocc).symm

set_option maxHeartbeats 1000000 in
/-- C3 amended: when every candidate is a non-empty string, the located
candidate spans are pairwise disjoint, the chunk text contains no `'<'`
(so no text can collide with a mask token) and no `'$'` (so no restored
entity text triggers a `GetSubstitution` escape), unmasking the masked text
with the recorded table reconstructs the chunk exactly; and the recorded
replacement tokens are pairwise distinct. -/
theorem C3_mask_unmask_roundtrip (text : Str) (cands : List EntityCand)
    (h1 : ∀ c ∈ cands, c.text ≠ [])
    (h2 : (entityPositions text cands).Pairwise
      fun a b => a.stop ≤ b.start ∨ b.stop ≤ a.start)
    (h3 : '<' ∉ text) (h4 : '$' ∉ text) :
    unmaskEntities (maskNamedEntities text cands).maskedText
        (maskNamedEntities text cands).entities = text ∧
    (maskNamedEntities text cands).entities.Pairwise
      fun a b => a.replacement ≠ b.replacement := by
  have hps := entityPositions_spec text cands h1
  have hperm := sortDescBy_perm EPos.start (entityPositions text cands)
  have hmem : ∀ p ∈ sortDescBy EPos.start (entityPositions text cands),
      p.text ≠ [] ∧ p.start < p.stop ∧ p.stop ≤ text.length ∧
        p.text = jsSlice text p.start p.stop :=
    fun p hp => hps p (hperm.subset hp)
  have hdesc := sortDescBy_sorted EPos.start (entityPositions text cands)
  have hdisj : (sortDescBy EPos.start (entityPositions text cands)).Pairwise
      (fun a b => a.stop ≤ b.start ∨ b.stop ≤ a.start) :=
    (hperm.pairwise_iff (fun {x y} h => Or.symm h)).mpr h2
  have hD : (sortDescBy EPos.start (entityPositions text cands)).Pairwise
      (fun a b => b.stop ≤ a.start) := by
    refine List.Pairwise.imp_of_mem ?_ (hdesc.and hdisj)
    intro a b ha hb hab
    obtain ⟨hle, hdj⟩ := hab
    have hane := (hmem a ha).2.1
    rcases hdj with h | h
    · omega
    · exact h
  have hstrict : (sortDescBy EPos.start (entityPositions text cands)).Pairwise
      (fun a b => b.start < a.start) := by
    refine List.Pairwise.imp_of_mem ?_ hD
    intro a b ha hb hab
    have hbne := (hmem b hb).2.1
    omega
  set sorted := sortDescBy EPos.start (entityPositions text cands) with hsorteddef
  have hfold := maskStep_fold sorted.enum text []
  have hmasked : (maskNamedEntities text cands).maskedText =
      maskF (sorted.enum.map fun ip => (tokenStr ip.2.ctype ip.1, ip.2)) text := by
    show (sorted.enum.foldl maskStep (text, [])).1 = _
    rw [hfold]
  have htable : (maskNamedEntities text cands).entities =
      (sorted.enum.map fun ip =>
        (⟨ip.2.text, tokenStr ip.2.ctype ip.1, ip.2.start, ip.2.stop,
          ip.2.ctype⟩ : MaskedEntity)).reverse := by
    show (sorted.enum.foldl maskStep (text, [])).2.reverse = _
    rw [hfold]
    simp
  have henum_snd : ∀ x ∈ sorted.enum, x.2 ∈ sorted := by
    intro x hx
    exact mem_enumFrom_snd hx
  have hjobs_tok : ∀ j ∈ sorted.enum.map fun ip => (tokenStr ip.2.ctype ip.1, ip.2),
      TokWf j.1 := by
    intro j hj
    obtain ⟨ip, -, rfl⟩ := List.mem_map.mp hj
    exact tokenStr_wf _ _
  have hjobs_spans : SpansOk (sorted.enum.map fun ip => (tokenStr ip.2.ctype ip.1, ip.2))
      text := by
    intro j hj
    obtain ⟨ip, hip, rfl⟩ := List.mem_map.mp hj
    obtain ⟨-, ha, hb, hc⟩ := hmem ip.2 (henum_snd ip hip)
    exact ⟨ha, hb, hc⟩
  have hjobs_D : JobsD (sorted.enum.map fun ip => (tokenStr ip.2.ctype ip.1, ip.2)) := by
    unfold JobsD
    rw [List.pairwise_map]
    exact enumFrom_pairwise_snd sorted 0 hD
  have hjobs_dist : (sorted.enum.map fun ip => (tokenStr ip.2.ctype ip.1, ip.2)).Pairwise
      (fun a b => a.1 ≠ b.1) := by
    rw [List.pairwise_map]
    refine List.Pairwise.imp ?_ (enumFrom_pairwise_lt sorted 0)
    intro a b hab
    exact tokenStr_inj_idx (by omega)
  have htab_strict : (sorted.enum.map fun ip =>
      (⟨ip.2.text, tokenStr ip.2.ctype ip.1, ip.2.start, ip.2.stop,
        ip.2.ctype⟩ : MaskedEntity)).Pairwise
      (fun a b => MaskedEntity.start b < MaskedEntity.start a) := by
    rw [List.pairwise_map]
    exact enumFrom_pairwise_snd sorted 0 hstrict
  have hasc : ((sorted.enum.map fun ip =>
      (⟨ip.2.text, tokenStr ip.2.ctype ip.1, ip.2.start, ip.2.stop,
        ip.2.ctype⟩ : MaskedEntity)).reverse).Pairwise
      (fun a b => MaskedEntity.start a < MaskedEntity.start b) := by
    rw [List.pairwise_reverse]
    exact htab_strict
  have hsortid : sortDescBy MaskedEntity.start ((sorted.enum.map fun ip =>
      (⟨ip.2.text, tokenStr ip.2.ctype ip.1, ip.2.start, ip.2.stop,
        ip.2.ctype⟩ : MaskedEntity)).reverse) =
      sorted.enum.map fun ip =>
        (⟨ip.2.text, tokenStr ip.2.ctype ip.1, ip.2.start, ip.2.stop,
          ip.2.ctype⟩ : MaskedEntity) := by
    rw [sortDescBy_of_ascending MaskedEntity.start _ hasc, List.reverse_reverse]
  have hcore := roundtrip_core
    (sorted.enum.map fun ip => (tokenStr ip.2.ctype ip.1, ip.2)) text [] h3
    (by simp) h4 hjobs_tok hjobs_spans hjobs_D hjobs_dist
  rw [List.append_nil, List.append_nil] at hcore
  constructor
  · rw [hmasked, htable]
    unfold unmaskEntities
    rw [hsortid]
    rw [List.foldl_map]
    unfold unmaskF at hcore
    rw [List.foldl_map] at hcore
    exact hcore
  · rw [htable]
    rw [List.pairwise_reverse]
    rw [List.pairwise_map]
    refine List.Pairwise.imp ?_ (enumFrom_pairwise_lt sorted 0)
    intro a b hab
    show tokenStr b.2.ctype b.1 ≠ tokenStr a.2.ctype a.1
    exact tokenStr_inj_idx (by omega)

/-- Counterexample to C3 as stated, in two independent ways.  First: one
candidate (`"Bob"` as a person — no two candidates share anything), but the
text already contains the literal `<ENTITY_PERSON_0>`; unmasking replaces
the *first* occurrence of the token, which is the pre-existing literal, so
the round trip fails.  Second: entity text containing a `GetSubstitution`
escape — candidate `"a$&"` in text `"a$& b"` (no bracket, single disjoint
span) is restored as `a` followed by the matched token itself, not as the
original entity text, so the round trip fails again. -/
theorem C3_counterexample :
    (unmaskEntities
        (maskNamedEntities "<ENTITY_PERSON_0> Bob".data
          [⟨"Bob".data, EType.person⟩]).maskedText
        (maskNamedEntities "<ENTITY_PERSON_0> Bob".data
          [⟨"Bob".data, EType.person⟩]).entities
      = "Bob <ENTITY_PERSON_0>".data ∧
    unmaskEntities
        (maskNamedEntities "<ENTITY_PERSON_0> Bob".data
          [⟨"Bob".data, EType.person⟩]).maskedText
        (maskNamedEntities "<ENTITY_PERSON_0> Bob".data
          [⟨"Bob".data, EType.person⟩]).entities
      ≠ "<ENTITY_PERSON_0> Bob".data) ∧
    (unmaskEntities
        (maskNamedEntities "a$& b".data
          [⟨"a$&".data, EType.person⟩]).maskedText
        (maskNamedEntities "a$& b".data
          [⟨"a$&".data, EType.person⟩]).entities
      = "a<ENTITY_PERSON_0> b".data ∧
    unmaskEntities
        (maskNamedEntities "a$& b".data
          [⟨"a$&".data, EType.person⟩]).maskedText
        (maskNamedEntities "a$& b".data
          [⟨"a$&".data, EType.person⟩]).entities
      ≠ "a$& b".data) := by
  exact ⟨⟨by decide, by decide⟩, ⟨by decide, by decide⟩⟩

/-- Witness for C3's amended statement on the Paris chunk. -/
theorem C3_witness :
    unmaskEntities (maskNamedEntities parisText [⟨"Paris".data, EType.place⟩]).maskedText
        (maskNamedEntities parisText [⟨"Paris".data, EType.place⟩]).entities = parisText ∧
    (maskNamedEntities parisText [⟨"Paris".data, EType.place⟩]).entities.Pairwise
      fun a b => a.replacement ≠ b.replacement :=
  C3_mask_unmask_roundtrip parisText [⟨"Paris".data, EType.place⟩]
    (by decide) (by decide) (by decide) (by decide)
